import Mathlib

/-!
Verification of the Merkle DAG log store (`merkle_store.py`) and the
incoming-event pipeline stages (`incoming_student_event.py`) of the
writing_observer repository, as a shallow embedding in Lean.

Python strings become `String`, bytes become `List Nat` (each < 256), JSON
values become the `Json`/`JArr`/`JObj` mutual inductive family, exceptions
become `Except MError`, and the wall clock becomes an explicit list of
timestamp strings consumed front-first (one per `timestamp()` call in the
source).
-/

namespace WObs

/-! ## SHA-256 over byte lists (the model of `hashlib.sha256`) -/

/-- Truncate to a 32-bit word. -/
def w32 (n : Nat) : Nat := n % 4294967296

/-- 32-bit right rotation. -/
def rotr (r x : Nat) : Nat := w32 ((x >>> r) ||| (x <<< (32 - r)))

def bsig0 (x : Nat) : Nat := (rotr 2 x) ^^^ (rotr 13 x) ^^^ (rotr 22 x)

def bsig1 (x : Nat) : Nat := (rotr 6 x) ^^^ (rotr 11 x) ^^^ (rotr 25 x)

def ssig0 (x : Nat) : Nat := (rotr 7 x) ^^^ (rotr 18 x) ^^^ (x >>> 3)

def ssig1 (x : Nat) : Nat := (rotr 17 x) ^^^ (rotr 19 x) ^^^ (x >>> 10)

def chf (x y z : Nat) : Nat := (x &&& y) ^^^ ((x ^^^ 4294967295) &&& z)

def majf (x y z : Nat) : Nat := (x &&& y) ^^^ (x &&& z) ^^^ (y &&& z)

/-- The 64 SHA-256 round constants. -/
def sha256K : List Nat :=
  [1116352408, 1899447441, 3049323471, 3921009573, 961987163, 1508970993,
   2453635748, 2870763221, 3624381080, 310598401, 607225278, 1426881987,
   1925078388, 2162078206, 2614888103, 3248222580, 3835390401, 4022224774,
   264347078, 604807628, 770255983, 1249150122, 1555081692, 1996064986,
   2554220882, 2821834349, 2952996808, 3210313671, 3336571891, 3584528711,
   113926993, 338241895, 666307205, 773529912, 1294757372, 1396182291,
   1695183700, 1986661051, 2177026350, 2456956037, 2730485921, 2820302411,
   3259730800, 3345764771, 3516065817, 3600352804, 4094571909, 275423344,
   430227734, 506948616, 659060556, 883997877, 958139571, 1322822218,
   1537002063, 1747873779, 1955562222, 2024104815, 2227730452, 2361852424,
   2428436474, 2756734187, 3204031479, 3329325298]

/-- Initial SHA-256 state. -/
def sha256H0 : List Nat :=
  [1779033703, 3144134277, 1013904242, 2773480762,
   1359893119, 2600822924, 528734635, 1541459225]

/-- Big-endian 8-byte encoding of a length in bits. -/
def be64 (n : Nat) : List Nat :=
  [(n >>> 56) &&& 255, (n >>> 48) &&& 255, (n >>> 40) &&& 255, (n >>> 32) &&& 255,
   (n >>> 24) &&& 255, (n >>> 16) &&& 255, (n >>> 8) &&& 255, n &&& 255]

/-- Big-endian 4-byte encoding of a 32-bit word. -/
def be32 (n : Nat) : List Nat :=
  [(n >>> 24) &&& 255, (n >>> 16) &&& 255, (n >>> 8) &&& 255, n &&& 255]

/-- SHA-256 message padding: `0x80`, zeros to 56 mod 64, then the bit length. -/
def padMsg (ms : List Nat) : List Nat :=
  ms ++ [128] ++ List.replicate ((119 - ms.length % 64) % 64) 0 ++ be64 (8 * ms.length)

/-- Group bytes into big-endian 32-bit words. -/
def toWords : List Nat → List Nat
  | a :: b :: c :: d :: rest => (((a * 256 + b) * 256 + c) * 256 + d) :: toWords rest
  | _ => []

/-- Extend a 16-word block by `fuel` additional schedule words. -/
def extendW : Nat → List Nat → List Nat
  | 0, ws => ws
  | fuel + 1, ws =>
      let n := ws.length
      let nw := w32 (ssig1 (ws.getD (n - 2) 0) + ws.getD (n - 7) 0 +
                     ssig0 (ws.getD (n - 15) 0) + ws.getD (n - 16) 0)
      extendW fuel (ws ++ [nw])

/-- One SHA-256 round on an 8-word working state. -/
def sha256Round (w k : Nat) : List Nat → List Nat
  | [a, b, c, d, e, f, g, h] =>
      let t1 := w32 (h + bsig1 e + chf e f g + k + w)
      let t2 := w32 (bsig0 a + majf a b c)
      [w32 (t1 + t2), a, b, c, w32 (d + t1), e, f, g]
  | st => st

/-- Run the 64 rounds of one block. -/
def sha256Rounds : List Nat → List Nat → List Nat → List Nat
  | w :: ws, k :: ks, st => sha256Rounds ws ks (sha256Round w k st)
  | _, _, st => st

/-- Compress one 16-word block into the running state. -/
def compressBlock (st ws16 : List Nat) : List Nat :=
  List.zipWith (fun a b => w32 (a + b)) st (sha256Rounds (extendW 48 ws16) sha256K st)

/-- Fold over `fuel` 16-word blocks. -/
def sha256Blocks : Nat → List Nat → List Nat → List Nat
  | 0, st, _ => st
  | fuel + 1, st, ws => sha256Blocks fuel (compressBlock st (ws.take 16)) (ws.drop 16)

/-- SHA-256 of a byte list, as 32 bytes. -/
def sha256 (ms : List Nat) : List Nat :=
  let ws := toWords (padMsg ms)
  ((sha256Blocks (ws.length / 16) sha256H0 ws).map be32).flatten

/-! ## UTF-8 and lowercase hex (the models of `str.encode('utf-8')` and `.hexdigest()`) -/

/-- UTF-8 encoding of a single code point. -/
def utf8Char (c : Char) : List Nat :=
  let n := c.toNat
  if n < 128 then [n]
  else if n < 2048 then [192 + n / 64, 128 + n % 64]
  else if n < 65536 then [224 + n / 4096, 128 + (n / 64) % 64, 128 + n % 64]
  else [240 + n / 262144, 128 + (n / 4096) % 64, 128 + (n / 64) % 64, 128 + n % 64]

/-- UTF-8 encoding of a string. -/
def utf8 (s : String) : List Nat := (s.data.map utf8Char).flatten

/-- Lowercase hex digit for a value below 16. -/
def hexChar (n : Nat) : Char := Char.ofNat (if n < 10 then 48 + n else 87 + n)

/-- Two lowercase hex digits of one byte. -/
def hexByte (b : Nat) : List Char := [hexChar (b / 16 % 16), hexChar (b % 16)]

/-- Lowercase hex rendering of a byte list. -/
def hexOfBytes (bs : List Nat) : String := String.mk ((bs.map hexByte).flatten)

/-- Is this character a lowercase hex digit? -/
def isHexLower (c : Char) : Bool :=
  (48 ≤ c.toNat && c.toNat ≤ 57) || (97 ≤ c.toNat && c.toNat ≤ 102)

theorem hexChar_isHexLower {n : Nat} (h : n < 16) : isHexLower (hexChar n) = true := by
  interval_cases n <;> decide

theorem hexByte_isHexLower {b : Nat} {c : Char} (h : c ∈ hexByte b) : isHexLower c = true := by
  simp only [hexByte, List.mem_cons, List.not_mem_nil, or_false] at h
  rcases h with rfl | rfl <;>
    exact hexChar_isHexLower (Nat.mod_lt _ (by norm_num))

/-- Every character of a hex digest is a lowercase hex digit. -/
theorem hexOfBytes_isHexLower {bs : List Nat} {c : Char} (h : c ∈ (hexOfBytes bs).data) :
    isHexLower c = true := by
  simp only [hexOfBytes, String.data, List.mem_flatten] at h
  obtain ⟨l, hl, hc⟩ := h
  obtain ⟨b, _, rfl⟩ := List.mem_map.mp hl
  exact hexByte_isHexLower hc

/-- Is every character of `s` a lowercase hex digit? -/
def allHexB (s : String) : Bool := s.data.all isHexLower

theorem hexOfBytes_allHex (bs : List Nat) : allHexB (hexOfBytes bs) = true := by
  simp only [allHexB, List.all_eq_true]
  intro c hc
  exact hexOfBytes_isHexLower hc

/-! ## Tab detection (the model of `'\t' in s`) -/

def tabIn : List Char → Bool
  | [] => false
  | c :: r => if c = '\t' then true else tabIn r

/-- The model of Python's `'\t' in s`. -/
def hasTab (s : String) : Bool := tabIn s.data

theorem tabIn_eq_false {l : List Char} (h : ∀ c ∈ l, c ≠ '\t') : tabIn l = false := by
  induction l with
  | nil => rfl
  | cons c r ih =>
      have hc := h c (by simp)
      simp only [tabIn, if_neg hc]
      exact ih fun x hx => h x (by simp [hx])

theorem tabIn_mem {l : List Char} (h : tabIn l = true) : '\t' ∈ l := by
  induction l with
  | nil => simp [tabIn] at h
  | cons c r ih =>
      by_cases hc : c = '\t'
      · simp [hc]
      · simp only [tabIn, if_neg hc] at h
        simp [ih h]

theorem isHexLower_ne_tab {c : Char} (h : isHexLower c = true) : c ≠ '\t' := by
  intro hc; subst hc; simp [isHexLower] at h

/-- Hex digests never contain a tab. -/
theorem hexOfBytes_hasTab (bs : List Nat) : hasTab (hexOfBytes bs) = false := by
  exact tabIn_eq_false fun c hc => isHexLower_ne_tab (hexOfBytes_isHexLower hc)

theorem allHex_hasTab {s : String} (h : allHexB s = true) : hasTab s = false := by
  refine tabIn_eq_false fun c hc => isHexLower_ne_tab ?_
  exact (List.all_eq_true.mp h) c hc

/-! ## Codepoint string comparison (the model of Python string `<`/`sorted`) -/

def charListLe : List Char → List Char → Bool
  | [], _ => true
  | _ :: _, [] => false
  | a :: as, b :: bs =>
      if a.toNat < b.toNat then true
      else if b.toNat < a.toNat then false
      else charListLe as bs

/-- Python's lexicographic (codepoint) string order, as a Boolean. -/
def strLe (a b : String) : Bool := charListLe a.data b.data

theorem char_eq_of_toNat_eq {a b : Char} (h : a.toNat = b.toNat) : a = b := by
  have hv : a.val = b.val := by
    apply UInt32.ext
    simpa [Char.toNat] using h
  exact Char.ext hv

theorem charListLe_cons {a b : Char} {as bs : List Char} :
    charListLe (a :: as) (b :: bs) = true ↔
      (a.toNat < b.toNat ∨ (a.toNat = b.toNat ∧ charListLe as bs = true)) := by
  simp only [charListLe]
  by_cases h1 : a.toNat < b.toNat
  · simp [h1]
  · by_cases h2 : b.toNat < a.toNat
    · simp [h1, h2]; omega
    · have h3 : a.toNat = b.toNat := by omega
      simp [h1, h2, h3]

theorem charListLe_total : ∀ a b : List Char, charListLe a b = true ∨ charListLe b a = true
  | [], _ => .inl rfl
  | _ :: _, [] => .inr rfl
  | a :: as, b :: bs => by
      rw [charListLe_cons, charListLe_cons]
      rcases Nat.lt_trichotomy a.toNat b.toNat with h1 | h1 | h1
      · exact .inl (.inl h1)
      · rcases charListLe_total as bs with h | h
        · exact .inl (.inr ⟨h1, h⟩)
        · exact .inr (.inr ⟨h1.symm, h⟩)
      · exact .inr (.inl h1)

theorem charListLe_antisymm : ∀ {a b : List Char},
    charListLe a b = true → charListLe b a = true → a = b
  | [], [], _, _ => rfl
  | [], _ :: _, _, h => by simp [charListLe] at h
  | _ :: _, [], h, _ => by simp [charListLe] at h
  | a :: as, b :: bs, h1, h2 => by
      rw [charListLe_cons] at h1 h2
      rcases h1 with h1 | ⟨h1e, h1t⟩ <;> rcases h2 with h2 | ⟨h2e, h2t⟩
      · omega
      · omega
      · omega
      · rw [char_eq_of_toNat_eq h1e, charListLe_antisymm h1t h2t]

theorem charListLe_trans : ∀ {a b c : List Char},
    charListLe a b = true → charListLe b c = true → charListLe a c = true
  | [], _, _, _, _ => rfl
  | _ :: _, [], _, h, _ => by simp [charListLe] at h
  | _ :: _, _ :: _, [], _, h => by simp [charListLe] at h
  | a :: as, b :: bs, c :: cs, h1, h2 => by
      rw [charListLe_cons] at h1 h2 ⊢
      rcases h1 with h1 | ⟨h1e, h1t⟩ <;> rcases h2 with h2 | ⟨h2e, h2t⟩
      · omega
      · omega
      · omega
      · exact .inr ⟨by omega, charListLe_trans h1t h2t⟩

theorem strLe_total (a b : String) : strLe a b = true ∨ strLe b a = true :=
  charListLe_total a.data b.data

theorem strLe_antisymm {a b : String} (h1 : strLe a b = true) (h2 : strLe b a = true) : a = b := by
  cases a; cases b
  exact congrArg String.mk (charListLe_antisymm h1 h2)

theorem strLe_trans {a b c : String} (h1 : strLe a b = true) (h2 : strLe b c = true) :
    strLe a c = true :=
  charListLe_trans h1 h2

/-! ## The model of JSON values and `json.dumps(obj, sort_keys=True)` -/

mutual
inductive Json : Type where
  | null : Json
  | bool (b : Bool) : Json
  | num (n : Int) : Json
  | str (s : String) : Json
  | arr (xs : JArr) : Json
  | obj (kvs : JObj) : Json
deriving DecidableEq
inductive JArr : Type where
  | nil : JArr
  | cons (hd : Json) (tl : JArr) : JArr
deriving DecidableEq
inductive JObj : Type where
  | nil : JObj
  | cons (k : String) (v : Json) (tl : JObj) : JObj
deriving DecidableEq
end

/-- Insert a binding into a key-sorted object. -/
def oInsert (k : String) (v : Json) : JObj → JObj
  | .nil => .cons k v .nil
  | .cons k2 v2 tl =>
      if strLe k k2 then .cons k v (.cons k2 v2 tl) else .cons k2 v2 (oInsert k v tl)

/-- Sort an object's bindings by key (Python's `sort_keys=True`). -/
def sortObj : JObj → JObj
  | .nil => .nil
  | .cons k v tl => oInsert k v (sortObj tl)

mutual
/-- Recursively sort every object's keys. -/
def jnorm : Json → Json
  | .null => .null
  | .bool b => .bool b
  | .num n => .num n
  | .str s => .str s
  | .arr xs => .arr (anorm xs)
  | .obj kvs => .obj (sortObj (onorm kvs))
termination_by structural j => j
def anorm : JArr → JArr
  | .nil => .nil
  | .cons x tl => .cons (jnorm x) (anorm tl)
termination_by structural a => a
def onorm : JObj → JObj
  | .nil => .nil
  | .cons k v tl => .cons k (jnorm v) (onorm tl)
termination_by structural o => o
end

/-- `\uXXXX` escape of a code unit. -/
def uEsc (n : Nat) : List Char :=
  ['\\', 'u', hexChar (n / 4096 % 16), hexChar (n / 256 % 16), hexChar (n / 16 % 16),
   hexChar (n % 16)]

/-- Python `json.dumps` escaping of one character (`ensure_ascii=True`). -/
def escChar (c : Char) : List Char :=
  if c.toNat = 34 then ['\\', '"']
  else if c.toNat = 92 then ['\\', '\\']
  else if c.toNat = 8 then ['\\', 'b']
  else if c.toNat = 9 then ['\\', 't']
  else if c.toNat = 10 then ['\\', 'n']
  else if c.toNat = 12 then ['\\', 'f']
  else if c.toNat = 13 then ['\\', 'r']
  else if c.toNat < 32 then uEsc c.toNat
  else if c.toNat < 127 then [c]
  else if c.toNat < 65536 then uEsc c.toNat
  else uEsc (55296 + (c.toNat - 65536) / 1024) ++ uEsc (56320 + (c.toNat - 65536) % 1024)

/-- JSON string literal rendering. -/
def escStr (s : String) : List Char := '"' :: (s.data.map escChar).flatten ++ ['"']

/-- Decimal digits of a positive number (fuel-based). -/
def natDigits : Nat → Nat → List Char
  | 0, _ => []
  | fuel + 1, n =>
      if n = 0 then [] else natDigits fuel (n / 10) ++ [hexChar (n % 10)]

/-- Decimal rendering of a natural number, as Python `str`. -/
def natDump (n : Nat) : List Char := if n = 0 then ['0'] else natDigits (n + 1) n

/-- Decimal rendering of an integer, as Python `str`. -/
def intDump : Int → List Char
  | .ofNat m => natDump m
  | .negSucc m => '-' :: natDump (m + 1)

mutual
/-- Serialize a (pre-sorted) JSON value with Python's default separators
(`", "` between items, `": "` after keys). -/
def dumpJ : Json → List Char
  | .null => ['n', 'u', 'l', 'l']
  | .bool true => 't' :: ['r', 'u', 'e']
  | .bool false => 'f' :: ['a', 'l', 's', 'e']
  | .num n => intDump n
  | .str s => escStr s
  | .arr xs => '[' :: (dumpA xs ++ [']'])
  | .obj kvs => Char.ofNat 123 :: (dumpO kvs ++ [Char.ofNat 125])
termination_by structural j => j
/-- Array elements, first without a leading separator. -/
def dumpA : JArr → List Char
  | .nil => []
  | .cons x tl => dumpJ x ++ dumpASep tl
termination_by structural a => a
/-- Remaining array elements, each behind an item separator. -/
def dumpASep : JArr → List Char
  | .nil => []
  | .cons x tl => ',' :: (' ' :: (dumpJ x ++ dumpASep tl))
termination_by structural a => a
/-- Object bindings, first without a leading separator. -/
def dumpO : JObj → List Char
  | .nil => []
  | .cons k v tl => escStr k ++ (':' :: (' ' :: (dumpJ v ++ dumpOSep tl)))
termination_by structural o => o
/-- Remaining object bindings, each behind an item separator. -/
def dumpOSep : JObj → List Char
  | .nil => []
  | .cons k v tl =>
      ',' :: (' ' :: (escStr k ++ (':' :: (' ' :: (dumpJ v ++ dumpOSep tl)))))
termination_by structural o => o
end

/-- The model of `json_dump` (`json.dumps(obj, sort_keys=True)`). -/
def jsonDump (j : Json) : String := String.mk (dumpJ (jnorm j))

/-! Characters produced by the serializer are never tabs. -/

theorem uEsc_noTab {n : Nat} {c : Char} (h : c ∈ uEsc n) : c ≠ '\t' := by
  simp only [uEsc, List.mem_cons, List.not_mem_nil, or_false] at h
  rcases h with rfl | rfl | rfl | rfl | rfl | rfl
  · decide
  · decide
  all_goals exact isHexLower_ne_tab (hexChar_isHexLower (Nat.mod_lt _ (by norm_num)))

theorem escChar_mem {x c : Char} (h : c ∈ escChar x) : c = x ∨ c ≠ '\t' := by
  simp only [escChar] at h
  repeat' split at h
  all_goals first
    | (right
       simp only [List.mem_append] at h
       rcases h with h | h <;> exact uEsc_noTab h)
    | (right; exact uEsc_noTab h)
    | (right
       simp only [List.mem_cons, List.not_mem_nil, or_false] at h
       rcases h with rfl | rfl <;> decide)
    | (left
       simp only [List.mem_cons, List.not_mem_nil, or_false] at h
       exact h)

theorem escChar_noTab {x c : Char} (h : c ∈ escChar x) : c ≠ '\t' := by
  by_cases hx : x = '\t'
  · subst hx
    have he : escChar '\t' = ['\\', 't'] := by decide
    rw [he] at h
    simp only [List.mem_cons, List.not_mem_nil, or_false] at h
    rcases h with rfl | rfl <;> decide
  · exact (escChar_mem h).elim (fun he => he ▸ hx) id

theorem escStr_noTab {s : String} {c : Char} (h : c ∈ escStr s) : c ≠ '\t' := by
  rcases List.mem_cons.mp h with rfl | h2
  · decide
  · rcases List.mem_append.mp h2 with h3 | h4
    · obtain ⟨l, hl, hc⟩ := List.mem_flatten.mp h3
      obtain ⟨x, _, rfl⟩ := List.mem_map.mp hl
      exact escChar_noTab hc
    · have h5 := List.mem_singleton.mp h4
      subst h5; decide

theorem natDigits_noTab : ∀ {fuel n : Nat} {c : Char}, c ∈ natDigits fuel n → c ≠ '\t'
  | 0, _, _, h => by simp [natDigits] at h
  | fuel + 1, n, c, h => by
      simp only [natDigits] at h
      split at h
      · simp at h
      · rcases List.mem_append.mp h with h | h
        · exact natDigits_noTab h
        · have h5 := List.mem_singleton.mp h
          subst h5
          exact isHexLower_ne_tab
            (hexChar_isHexLower (lt_trans (Nat.mod_lt _ (by norm_num)) (by norm_num)))

theorem natDump_noTab {n : Nat} {c : Char} (h : c ∈ natDump n) : c ≠ '\t' := by
  simp only [natDump] at h
  split at h
  · have h5 := List.mem_singleton.mp h; subst h5; decide
  · exact natDigits_noTab h

theorem intDump_noTab {n : Int} {c : Char} (h : c ∈ intDump n) : c ≠ '\t' := by
  cases n with
  | ofNat m => exact natDump_noTab h
  | negSucc m =>
      rcases List.mem_cons.mp h with rfl | h2
      · decide
      · exact natDump_noTab h2

mutual
theorem dumpJ_noTab : ∀ (j : Json) {c : Char}, c ∈ dumpJ j → c ≠ '\t'
  | .null, c, h => by
      simp only [dumpJ, List.mem_cons, List.not_mem_nil, or_false] at h
      rcases h with rfl | rfl | rfl | rfl <;> decide
  | .bool true, c, h => by
      simp only [dumpJ, List.mem_cons, List.not_mem_nil, or_false] at h
      rcases h with rfl | rfl | rfl | rfl <;> decide
  | .bool false, c, h => by
      simp only [dumpJ, List.mem_cons, List.not_mem_nil, or_false] at h
      rcases h with rfl | rfl | rfl | rfl | rfl <;> decide
  | .num n, c, h => intDump_noTab (by simpa [dumpJ] using h)
  | .str s, c, h => escStr_noTab (by simpa [dumpJ] using h)
  | .arr xs, c, h => by
      simp only [dumpJ] at h
      rcases List.mem_cons.mp h with rfl | h2
      · decide
      · rcases List.mem_append.mp h2 with h3 | h4
        · exact dumpA_noTab xs h3
        · have h5 := List.mem_singleton.mp h4; subst h5; decide
  | .obj kvs, c, h => by
      simp only [dumpJ] at h
      rcases List.mem_cons.mp h with rfl | h2
      · decide
      · rcases List.mem_append.mp h2 with h3 | h4
        · exact dumpO_noTab kvs h3
        · have h5 := List.mem_singleton.mp h4; subst h5; decide
termination_by structural j => j
theorem dumpA_noTab : ∀ (a : JArr) {c : Char}, c ∈ dumpA a → c ≠ '\t'
  | .nil, c, h => by simp [dumpA] at h
  | .cons x tl, c, h => by
      simp only [dumpA] at h
      rcases List.mem_append.mp h with h1 | h2
      · exact dumpJ_noTab x h1
      · exact dumpASep_noTab tl h2
termination_by structural a => a
theorem dumpASep_noTab : ∀ (a : JArr) {c : Char}, c ∈ dumpASep a → c ≠ '\t'
  | .nil, c, h => by simp [dumpASep] at h
  | .cons x tl, c, h => by
      simp only [dumpASep] at h
      rcases List.mem_cons.mp h with rfl | h2
      · decide
      · rcases List.mem_cons.mp h2 with rfl | h3
        · decide
        · rcases List.mem_append.mp h3 with h4 | h5
          · exact dumpJ_noTab x h4
          · exact dumpASep_noTab tl h5
termination_by structural a => a
theorem dumpO_noTab : ∀ (o : JObj) {c : Char}, c ∈ dumpO o → c ≠ '\t'
  | .nil, c, h => by simp [dumpO] at h
  | .cons k v tl, c, h => by
      simp only [dumpO] at h
      rcases List.mem_append.mp h with h1 | h2
      · exact escStr_noTab h1
      · rcases List.mem_cons.mp h2 with rfl | h3
        · decide
        · rcases List.mem_cons.mp h3 with rfl | h4
          · decide
          · rcases List.mem_append.mp h4 with h5 | h6
            · exact dumpJ_noTab v h5
            · exact dumpOSep_noTab tl h6
termination_by structural o => o
theorem dumpOSep_noTab : ∀ (o : JObj) {c : Char}, c ∈ dumpOSep o → c ≠ '\t'
  | .nil, c, h => by simp [dumpOSep] at h
  | .cons k v tl, c, h => by
      simp only [dumpOSep] at h
      rcases List.mem_cons.mp h with rfl | h2
      · decide
      · rcases List.mem_cons.mp h2 with rfl | h3
        · decide
        · rcases List.mem_append.mp h3 with h4 | h5
          · exact escStr_noTab h4
          · rcases List.mem_cons.mp h5 with rfl | h6
            · decide
            · rcases List.mem_cons.mp h6 with rfl | h7
              · decide
              · rcases List.mem_append.mp h7 with h8 | h9
                · exact dumpJ_noTab v h8
                · exact dumpOSep_noTab tl h9
termination_by structural o => o
end

/-- A canonical JSON dump never contains a tab character. -/
theorem jsonDump_noTab (j : Json) : hasTab (jsonDump j) = false :=
  tabIn_eq_false fun _ hc => dumpJ_noTab (jnorm j) hc

/-- The dump of an object starts with an opening brace. -/
theorem jsonDump_obj_data (kvs : JObj) :
    ∃ l, (jsonDump (Json.obj kvs)).data = Char.ofNat 123 :: l := by
  refine ⟨dumpO (sortObj (onorm kvs)) ++ [Char.ofNat 125], ?_⟩
  simp [jsonDump, jnorm, dumpJ]

/-- An all-hex string (such as a digest) is never the dump of an object. -/
theorem allHex_ne_objDump {d : String} (hd : allHexB d = true) (kvs : JObj) :
    d ≠ jsonDump (Json.obj kvs) := by
  intro he
  obtain ⟨l, hl⟩ := jsonDump_obj_data kvs
  have hmem : Char.ofNat 123 ∈ d.data := by rw [he, hl]; simp
  have hh := (List.all_eq_true.mp hd) _ hmem
  have hfalse : isHexLower (Char.ofNat 123) = false := by decide
  rw [hfalse] at hh
  exact Bool.noConfusion hh

/-! ## Sorting string lists (the model of Python `sorted` on hash lists) -/

def insertStr (x : String) : List String → List String
  | [] => [x]
  | y :: ys => if strLe x y then x :: y :: ys else y :: insertStr x ys

/-- Insertion sort by codepoint order — the model of `sorted(children)`. -/
def sortStrings : List String → List String
  | [] => []
  | x :: xs => insertStr x (sortStrings xs)

theorem insertStr_perm (x : String) :
    ∀ l : List String, List.Perm (insertStr x l) (x :: l)
  | [] => List.Perm.refl _
  | y :: ys => by
      simp only [insertStr]
      split
      · exact List.Perm.refl _
      · exact ((insertStr_perm x ys).cons y).trans (List.Perm.swap x y ys)

theorem sortStrings_perm : ∀ l : List String, List.Perm (sortStrings l) l
  | [] => List.Perm.refl _
  | x :: xs => (insertStr_perm x (sortStrings xs)).trans ((sortStrings_perm xs).cons x)

theorem mem_sortStrings {a : String} {l : List String} : a ∈ sortStrings l ↔ a ∈ l :=
  (sortStrings_perm l).mem_iff

theorem mem_insertStr {a x : String} {l : List String} :
    a ∈ insertStr x l ↔ a = x ∨ a ∈ l := by
  rw [(insertStr_perm x l).mem_iff, List.mem_cons]

theorem insertStr_sorted {x : String} : ∀ {l : List String},
    l.Pairwise (fun a b => strLe a b = true) →
    (insertStr x l).Pairwise (fun a b => strLe a b = true)
  | [], _ => by simp [insertStr]
  | y :: ys, h => by
      simp only [insertStr]
      split
      · rename_i hxy
        refine List.Pairwise.cons ?_ h
        intro b hb
        rcases List.mem_cons.mp hb with rfl | hb2
        · exact hxy
        · exact strLe_trans hxy (List.rel_of_pairwise_cons h hb2)
      · rename_i hxy
        have hyx : strLe y x = true := by
          rcases strLe_total x y with ht | ht
          · exact absurd ht hxy
          · exact ht
        have h1 := List.pairwise_cons.mp h
        refine List.pairwise_cons.mpr ⟨?_, insertStr_sorted h1.2⟩
        intro b hb
        rcases mem_insertStr.mp hb with rfl | hb2
        · exact hyx
        · exact h1.1 b hb2

theorem sortStrings_sorted : ∀ l : List String,
    (sortStrings l).Pairwise (fun a b => strLe a b = true)
  | [] => List.Pairwise.nil
  | x :: xs => insertStr_sorted (sortStrings_sorted xs)

instance : IsAntisymm String (fun a b => strLe a b = true) :=
  ⟨fun _ _ => strLe_antisymm⟩

/-- Sorting is invariant under permutation of the input — the reason a
permutation of a `children` list leaves the recomputed node hash unchanged. -/
theorem sortStrings_eq_of_perm {l1 l2 : List String} (h : List.Perm l1 l2) :
    sortStrings l1 = sortStrings l2 := by
  have hs1 : List.Sorted (fun a b => strLe a b = true) (sortStrings l1) :=
    sortStrings_sorted l1
  have hs2 : List.Sorted (fun a b => strLe a b = true) (sortStrings l2) :=
    sortStrings_sorted l2
  exact List.eq_of_perm_of_sorted
    ((sortStrings_perm l1).trans (h.trans (sortStrings_perm l2).symm)) hs1 hs2

/-! ## `merkle_hash` -/

/-- The exception kinds raised by the modelled code (`ValueError`/`KeyError`). -/
inductive MError : Type where
  | tabInput (s : String)
  | streamNotFound (key : String)
  | keyError (key : String)
  | typeError (what : String)
  | eventHashNotInChildren (i : Nat) (h : String)
  | prevHashNotInChildren (i : Nat) (h : String)
  | hashMismatch (i : Nat) (expected got : String)
deriving DecidableEq

/-- First input containing a tab, mirroring the source's validation loop. -/
def findTab : List String → Option String
  | [] => none
  | s :: r => if hasTab s then some s else findTab r

/-- Digest of tab-joined inputs: lowercase hex SHA-256 of the UTF-8 bytes. -/
def digestOf (l : List String) : String :=
  hexOfBytes (sha256 (utf8 (String.intercalate "\t" l)))

/-- The model of `merkle_hash` (`HASH_TRUNCATE = None`). -/
def merkleHash (strings : List String) : Except MError String :=
  match findTab strings with
  | some s => .error (.tabInput s)
  | none => .ok (digestOf strings)

theorem findTab_eq_none {l : List String} :
    findTab l = none ↔ ∀ s ∈ l, hasTab s = false := by
  induction l with
  | nil => simp [findTab]
  | cons s r ih =>
      simp only [findTab]
      by_cases hs : hasTab s = true
      · simp [hs]
      · have hs' : hasTab s = false := by
          cases h : hasTab s
          · rfl
          · exact absurd h hs
        simp [hs', ih]

theorem merkleHash_ok {l : List String} (h : ∀ s ∈ l, hasTab s = false) :
    merkleHash l = .ok (digestOf l) := by
  simp [merkleHash, findTab_eq_none.mpr h]

theorem merkleHash_out_allHex {l : List String} {d : String}
    (h : merkleHash l = .ok d) : allHexB d = true := by
  simp only [merkleHash] at h
  cases hf : findTab l with
  | some s => rw [hf] at h; cases h
  | none =>
      rw [hf] at h
      cases h
      exact hexOfBytes_allHex _

theorem merkleHash_out_noTab {l : List String} {d : String}
    (h : merkleHash l = .ok d) : hasTab d = false :=
  allHex_hasTab (merkleHash_out_allHex h)

/-! ## Items, tombstones and the in-memory storage backend -/

/-- A Merkle item as constructed by `event_to_session`. -/
structure Item where
  children : List String
  hash : String
  timestamp : String
  event : Json
  label : Option String
deriving DecidableEq

/-- A tombstone record as constructed by `delete_stream_with_tombstone`
(its `type` field is the constant `"tombstone"`). -/
structure Tombstone where
  deleted_stream : String
  final_hash : String
  item_hashes : List String
  item_count : Nat
  reason : String
  timestamp : String
  tombstone_hash : String
deriving DecidableEq

/-- A record stored in a stream: either a Merkle item or a tombstone. -/
inductive SEntry : Type where
  | item (it : Item)
  | tomb (t : Tombstone)
deriving DecidableEq

/-- The model of `InMemoryStorage._store`: an insertion-ordered mapping from
stream key to the ordered list of its records (keys are unique in a Python
dict; theorems carry a `Nodup` hypothesis where it matters). -/
abbrev Store := List (String × List SEntry)

/-- `dict.get` — first binding wins. -/
def lookupStream : Store → String → Option (List SEntry)
  | [], _ => none
  | (k, v) :: r, key => if k = key then some v else lookupStream r key

/-- `dict[key] = value` — replace in place, else append at the end. -/
def setStream : Store → String → List SEntry → Store
  | [], key, v => [(key, v)]
  | (k, w) :: r, key, v =>
      if k = key then (k, v) :: r else (k, w) :: setStream r key v

/-- `dict.pop(key, None)` — drop the binding if present. -/
def popStream : Store → String → Store
  | [], _ => []
  | (k, v) :: r, key => if k = key then r else (k, v) :: popStream r key

/-- `_append_to_stream`: `setdefault(stream, []).append(item)`. -/
def appendStream (s : Store) (key : String) (e : SEntry) : Store :=
  match lookupStream s key with
  | some l => setStream s key (l ++ [e])
  | none => s ++ [(key, [e])]

/-- Last record of a non-empty stream (`data[-1]`). -/
def lastD : SEntry → List SEntry → SEntry
  | e, [] => e
  | _, x :: r => lastD x r

/-- `_most_recent_item`: last record, or `None` when absent or empty. -/
def mostRecent (s : Store) (key : String) : Option SEntry :=
  match lookupStream s key with
  | none => none
  | some [] => none
  | some (e :: es) => some (lastD e es)

/-- `_rename_or_alias_stream`: no-op when equal, else `store[alias] = store.pop(stream)`
(`KeyError` when the stream is absent). -/
def renameStream (s : Store) (old new : String) : Except MError Store :=
  if new = old then .ok s
  else match lookupStream s old with
    | none => .error (.keyError old)
    | some v => .ok (setStream (popStream s old) new v)

/-- Accessing `entry['hash']` — a `KeyError` on a tombstone record. -/
def entryHash : SEntry → Except MError String
  | .item it => .ok it.hash
  | .tomb _ => .error (.keyError "hash")

/-- Stream invariant: every record is a Merkle item with a tab-free hash. -/
def streamOkB : List SEntry → Bool
  | [] => true
  | .item it :: r => (!hasTab it.hash) && streamOkB r
  | .tomb _ :: _ => false

/-- Store invariant: every stream satisfies `streamOkB`. -/
def storeOkB : Store → Bool
  | [] => true
  | (_, l) :: r => streamOkB l && storeOkB r

/-- The records of a stream, empty when the stream is absent. -/
def entriesAt (s : Store) (k : String) : List SEntry := (lookupStream s k).getD []

/-- Is `k` absent from the store's keys? -/
def keyNotIn (k : String) : Store → Bool
  | [] => true
  | (k2, _) :: r => if k2 = k then false else keyNotIn k r

/-- Are the store's stream keys distinct (as in a Python dict)? -/
def nodupKeysB : Store → Bool
  | [] => true
  | (k, _) :: r => keyNotIn k r && nodupKeysB r

/-! ## The Merkle engine -/

/-- `session_key`: canonical JSON of the session descriptor. -/
def sessionKey (sess : JObj) : String := jsonDump (Json.obj sess)

/-- Pop the next timestamp off the clock (empty clock yields `""`). -/
def takeTs : List String → String × List String
  | [] => ("", [])
  | t :: r => (t, r)

/-- The children list once the previous-item link is resolved: caller extras,
then the event hash, then the previous item's hash (source order). -/
def linkChildren (c1 : List String) (mr : Option SEntry) : Except MError (List String) :=
  match mr with
  | some e => (entryHash e).map fun ph => c1 ++ [ph]
  | none => .ok c1

/-- The model of `Merkle.event_to_session`. -/
def eventToSession (ev : Json) (sess : JObj) (extraChildren : List String)
    (label : Option String) (s : Store) (clk : List String) :
    Except MError (Item × Store × List String) :=
  match merkleHash [jsonDump ev] with
  | .error e => .error e
  | .ok eh =>
      match linkChildren (extraChildren ++ [eh]) (mostRecent s (sessionKey sess)) with
      | .error e => .error e
      | .ok c2 =>
          match merkleHash (sortStrings c2 ++ [(takeTs clk).1]) with
          | .error e => .error e
          | .ok nh =>
              let it : Item := ⟨c2, nh, (takeTs clk).1, ev, label⟩
              .ok (it, appendStream s (sessionKey sess) (.item it), (takeTs clk).2)

/-- The `start`/`continue` event dict built by `Merkle.start`. -/
def startEvent (sess : JObj) (metadata : Option Json) (continuation : Option String) : Json :=
  let ty : String := match continuation with | some _ => "continue" | none => "start"
  let tail1 : JObj := match continuation with
    | some h => JObj.cons "continues" (.str h) .nil
    | none => .nil
  let tail0 : JObj := match metadata with
    | some md => JObj.cons "metadata" md tail1
    | none => tail1
  .obj (JObj.cons "type" (.str ty) (JObj.cons "session" (.obj sess) tail0))

/-- The model of `Merkle.start`. -/
def startM (sess : JObj) (metadata : Option Json) (continuation : Option String)
    (s : Store) (clk : List String) : Except MError (Item × Store × List String) :=
  let extra : List String := match continuation with | some h => [h] | none => []
  eventToSession (startEvent sess metadata continuation) sess extra (some "start") s clk

/-- The `close` event dict. -/
def closeEvent (sess : JObj) : Json :=
  .obj (JObj.cons "type" (.str "close") (JObj.cons "session" (.obj sess) .nil))

/-- The `child_session_finished` event dict. -/
def csfEvent (sh : String) (sess : JObj) : Json :=
  .obj (JObj.cons "type" (.str "child_session_finished")
       (JObj.cons "child_hash" (.str sh)
       (JObj.cons "child_session" (.obj sess) .nil)))

/-- The recognized parent-propagation categories (`CATEGORIES`). -/
def CATEGORIES : List String :=
  ["teacher", "student", "school", "classroom", "course", "assignment", "tool"]

/-- `JArr` to `List Json`. -/
def toListJ : JArr → List Json
  | .nil => []
  | .cons x tl => x :: toListJ tl

/-- `values if isinstance(values, list) else [values]`. -/
def listify : Json → List Json
  | .arr xs => toListJ xs
  | v => [v]

/-- Append a `child_session_finished` item to the parent stream of each value
(the item's display label stands in for Python's `f-string` rendering; labels
never enter any hash). -/
def propagateVals (key : String) (vals : List Json) (sh : String) (sess : JObj)
    (s : Store) (clk : List String) : Except MError (Store × List String) :=
  match vals with
  | [] => .ok (s, clk)
  | v :: rest =>
      match eventToSession (csfEvent sh sess) (JObj.cons key v .nil) [sh]
          (some (key ++ ":" ++ jsonDump v)) s clk with
      | .error e => .error e
      | .ok (_, s', clk') => propagateVals key rest sh sess s' clk'

/-- Walk the descriptor's keys in insertion order, skipping unrecognized ones. -/
def propagate (entries : JObj) (sh : String) (sess : JObj) (s : Store)
    (clk : List String) : Except MError (Store × List String) :=
  match entries with
  | .nil => .ok (s, clk)
  | .cons k v tl =>
      if k ∈ CATEGORIES then
        match propagateVals k (listify v) sh sess s clk with
        | .error e => .error e
        | .ok (s', clk') => propagate tl sh sess s' clk'
      else propagate tl sh sess s clk

/-- The model of `Merkle.close_session`. -/
def closeSession (sess : JObj) (logicalBreak : Bool) (s : Store) (clk : List String) :
    Except MError (String × Store × List String) :=
  match eventToSession (closeEvent sess) sess [] (some "close") s clk with
  | .error e => .error e
  | .ok (fi, s1, clk1) =>
      match renameStream s1 (sessionKey sess) fi.hash with
      | .error e => .error e
      | .ok s2 =>
          if logicalBreak then .ok (fi.hash, s2, clk1)
          else
            match propagate sess fi.hash sess s2 clk1 with
            | .error e => .error e
            | .ok (s3, clk3) => .ok (fi.hash, s3, clk3)

/-- The chain-linkage check of `verify_chain`, skipped for the first item. -/
def checkPrev (i : Nat) (prev : Option String) (children : List String) :
    Except MError Unit :=
  match prev with
  | some p => if p ∈ children then .ok () else .error (.prevHashNotInChildren i p)
  | none => .ok ()

/-- The model of `Merkle.verify_chain`'s per-item loop.  `i` is the running
index and `prev` the previous item's hash.  A tombstone record models the
source's `KeyError` on `item['event']`. -/
def verifyItems : Nat → Option String → List SEntry → Except MError Bool
  | i, prev, [] => .ok true
  | i, prev, .tomb t :: rest => .error (.keyError "event")
  | i, prev, .item it :: rest =>
      match merkleHash [jsonDump it.event] with
      | .error e => .error e
      | .ok eh =>
        if eh ∈ it.children then
          match checkPrev i prev it.children with
          | .error e => .error e
          | .ok _ =>
              match merkleHash (sortStrings it.children ++ [it.timestamp]) with
              | .error e => .error e
              | .ok expected =>
                  if it.hash = expected then verifyItems (i + 1) (some it.hash) rest
                  else .error (.hashMismatch i expected it.hash)
        else .error (.eventHashNotInChildren i eh)

/-- The model of `Merkle.verify_chain`. -/
def verifyChain (s : Store) (key : String) : Except MError Bool :=
  match lookupStream s key with
  | none => .error (.streamNotFound key)
  | some [] => .error (.streamNotFound key)
  | some data => verifyItems 0 none data

/-- `[item['hash'] for item in data]`. -/
def allItemHashes : List SEntry → Except MError (List String)
  | [] => .ok []
  | .tomb _ :: _ => .error (.keyError "hash")
  | .item it :: r =>
      match allItemHashes r with
      | .error e => .error e
      | .ok hs => .ok (it.hash :: hs)

/-- `List String` to a JSON array of strings. -/
def ofListStr : List String → JArr
  | [] => .nil
  | s :: r => .cons (.str s) (ofListStr r)

/-- The tombstone dict before its `tombstone_hash` field is added. -/
def tombJson (key fh : String) (hashes : List String) (count : Nat)
    (reason ts : String) : Json :=
  .obj (JObj.cons "type" (.str "tombstone")
       (JObj.cons "deleted_stream" (.str key)
       (JObj.cons "final_hash" (.str fh)
       (JObj.cons "item_hashes" (.arr (ofListStr hashes))
       (JObj.cons "item_count" (.num (Int.ofNat count))
       (JObj.cons "reason" (.str reason)
       (JObj.cons "timestamp" (.str ts) .nil)))))))

/-- The model of `Merkle.delete_stream_with_tombstone`. -/
def deleteStreamWithTombstone (s : Store) (key reason : String) (clk : List String) :
    Except MError (Tombstone × Store × List String) :=
  match lookupStream s key with
  | none => .error (.streamNotFound key)
  | some [] => .error (.streamNotFound key)
  | some (e :: es) =>
      match entryHash (lastD e es) with
      | .error er => .error er
      | .ok fh =>
        match allItemHashes (e :: es) with
        | .error er => .error er
        | .ok hashes =>
          match merkleHash
              [jsonDump (tombJson key fh hashes (e :: es).length reason (takeTs clk).1)] with
          | .error er => .error er
          | .ok th =>
              let t : Tombstone :=
                ⟨key, fh, hashes, (e :: es).length, reason, (takeTs clk).1, th⟩
              .ok (t, appendStream (popStream s key) ("__tombstone__" ++ key) (.tomb t),
                   (takeTs clk).2)

/-! ## Python dict operations on JSON objects (for the pipeline stages) -/

/-- `d.get(k)` — `None` when absent. -/
def oGet : JObj → String → Option Json
  | .nil, _ => none
  | .cons k v r, key => if k = key then some v else oGet r key

/-- `d.get(k, default)`. -/
def oGetD (d : JObj) (k : String) (v0 : Json) : Json := (oGet d k).getD v0

/-- `k in d`. -/
def oHas (d : JObj) (k : String) : Bool := (oGet d k).isSome

/-- `d[k] = v` — replace the binding in place, else append at the end. -/
def oSet : JObj → String → Json → JObj
  | .nil, key, v => .cons key v .nil
  | .cons k w r, key, v =>
      if k = key then .cons k v r else .cons k w (oSet r key v)

/-- `del d[k]` / `d.pop(k, None)`. -/
def oRemove : JObj → String → JObj
  | .nil, _ => .nil
  | .cons k v r, key => if k = key then r else .cons k v (oRemove r key)

/-- `d.update(other)` — assign each of `other`'s bindings in order. -/
def oUpdate : JObj → JObj → JObj
  | d, .nil => d
  | d, .cons k v r => oUpdate (oSet d k v) r

/-! ## Pipeline stage: `decode_lock_fields` -/

/-- One step of the `decode_lock_fields` stage: given the connection's lock
map and one event, return the updated lock map and the yielded event, if any.
Missing `event`/`fields` keys model the source's `KeyError`; a non-dict
`fields` models its dynamic type failure. -/
def lockStep (lock ev : JObj) : Except MError (JObj × Option JObj) :=
  match oGet ev "event" with
  | none => .error (.keyError "event")
  | some evName =>
      if evName = Json.str "lock_fields" then
        match oGet ev "fields" with
        | none => .error (.keyError "fields")
        | some (Json.obj fields) =>
            if oHas fields "source" = false ∨
               oGetD fields "source" (Json.str "") ≠ oGetD lock "source" (Json.str "") then
              .ok (oUpdate lock fields, none)
            else
              .ok (lock, none)
        | some _ => .error (.typeError "fields")
      else
        .ok (lock, some (oUpdate ev lock))

/-- Fold `lockStep` over a message list, collecting the yielded events. -/
def lockRun (lock : JObj) : List JObj → Except MError (JObj × List JObj)
  | [] => .ok (lock, [])
  | ev :: rest =>
      match lockStep lock ev with
      | .error e => .error e
      | .ok (lock', out) =>
          match lockRun lock' rest with
          | .error e => .error e
          | .ok (lockF, outs) =>
              match out with
              | some e2 => .ok (lockF, e2 :: outs)
              | none => .ok (lockF, outs)

/-! ## Pipeline stage: `handle_auth_events` -/

/-- Python truthiness of a JSON value (`None`, `False`, `0`, `""`, `[]` and
`\x7b\x7d` are falsy). -/
def truthy : Json → Bool
  | .null => false
  | .bool b => b
  | .num n => n ≠ 0
  | .str s => s ≠ ""
  | .arr .nil => false
  | .arr _ => true
  | .obj .nil => false
  | .obj _ => true

/-- The connection state of the auth stage. -/
structure AuthState where
  authenticated : Option Json
  backlog : List JObj

/-- Flush transform: drop auth-consumed events, attach `auth` to the rest. -/
def flushBacklog (idt : Json) : List JObj → List JObj
  | [] => []
  | e :: r =>
      if truthy (oGetD e "_consumed_by_auth" Json.null) then flushBacklog idt r
      else oUpdate e (JObj.cons "auth" idt .nil) :: flushBacklog idt r

/-- One step of `handle_auth_events`.  `authF` models the external
`learning_observer.auth.events.authenticate` resolver (applied to the event
after its injected `auth` field is stripped).  Returns the new state and the
events yielded downstream, in order. -/
def authStep (authF : JObj → Option Json) (st : AuthState) (ev : JObj) :
    AuthState × List JObj :=
  let ev1 := oRemove ev "auth"
  match st.authenticated with
  | none =>
      match authF ev1 with
      | some idt =>
          let ev2 := oSet ev1 "_consumed_by_auth" (Json.bool true)
          (⟨some idt, st.backlog ++ [ev2]⟩, [])
      | none => (⟨none, st.backlog ++ [ev1]⟩, [])
  | some idt =>
      (⟨some idt, []⟩,
       flushBacklog idt st.backlog ++ [oUpdate ev1 (JObj.cons "auth" idt .nil)])

/-- Fold `authStep` over the connection's messages, collecting yields. -/
def authRun (authF : JObj → Option Json) (st : AuthState) :
    List JObj → AuthState × List JObj
  | [] => (st, [])
  | ev :: rest =>
      let (st', out) := authStep authF st ev
      let (stF, outs) := authRun authF st' rest
      (stF, out ++ outs)

/-! ## The Merkle-mode event decoder (`event_decoder_and_logger`) -/

/-- The decoder's per-connection state. -/
structure DecState where
  session : Option JObj
  sessionStarted : Bool
  buffer : List Json
  store : Store
  clk : List String
deriving DecidableEq

/-- `event_to_session(buffered_event, session)` over the buffer, in FIFO order. -/
def replayBuffer (sess : JObj) : List Json → Store → List String →
    Except MError (Store × List String)
  | [], s, clk => .ok (s, clk)
  | e :: r, s, clk =>
      match eventToSession e sess [] none s clk with
      | .error er => .error er
      | .ok (_, s', clk') => replayBuffer sess r s' clk'

/-- The synthetic header event. -/
def headerEvent (h : Json) : Json :=
  .obj (JObj.cons "type" (.str "header") (JObj.cons "headers" h .nil))

/-- The session descriptor built by `initialize_session`. -/
def iniSess (student tool : String) : JObj :=
  JObj.cons "student" (.arr (JArr.cons (.str student) .nil))
    (JObj.cons "tool" (.arr (JArr.cons (.str tool) .nil)) .nil)

/-- The optional synthetic header append of `initialize_session`. -/
def headerStep (headers : Option Json) (sess : JObj) (s : Store) (clk : List String) :
    Except MError (Store × List String) :=
  match headers with
  | some h =>
      match eventToSession (headerEvent h) sess [] (some "headers") s clk with
      | .error e => .error e
      | .ok (_, s', clk') => .ok (s', clk')
  | none => .ok (s, clk)

/-- The model of the decoder's `initialize_session(student, tool)`. -/
def initializeSession (headers metadata : Option Json) (student tool : String)
    (st : DecState) : Except MError DecState :=
  if st.sessionStarted then .ok st
  else
    match startM (iniSess student tool) metadata none st.store st.clk with
    | .error e => .error e
    | .ok (_, s1, clk1) =>
        match headerStep headers (iniSess student tool) s1 clk1 with
        | .error e => .error e
        | .ok (s2, clk2) =>
            match replayBuffer (iniSess student tool) st.buffer s2 clk2 with
            | .error e => .error e
            | .ok (s3, clk3) => .ok ⟨some (iniSess student tool), true, [], s3, clk3⟩

/-- `n` sequential calls of `initialize_session` with the same arguments. -/
def iterInit (headers metadata : Option Json) (student tool : String) :
    Nat → DecState → Except MError DecState
  | 0, st => .ok st
  | n + 1, st =>
      match initializeSession headers metadata student tool st with
      | .error e => .error e
      | .ok st' => iterInit headers metadata student tool n st'

/-- The session-lifecycle driver of claim C1: `start`, the events in order,
then `close_session` with parent propagation. -/
def appendEventList (sess : JObj) : List Json → Store → List String →
    Except MError (Store × List String) := replayBuffer sess

def runSession (sess : JObj) (metadata : Option Json) (evs : List Json)
    (s : Store) (clk : List String) : Except MError (String × Store × List String) :=
  match startM sess metadata none s clk with
  | .error e => .error e
  | .ok (_, s1, clk1) =>
      match appendEventList sess evs s1 clk1 with
      | .error e => .error e
      | .ok (s2, clk2) => closeSession sess false s2 clk2

/-! ## Store lemmas -/

theorem lookup_setStream_self : ∀ (s : Store) (k : String) (v : List SEntry),
    lookupStream (setStream s k v) k = some v
  | [], k, v => by simp [setStream, lookupStream]
  | (k2, w) :: r, k, v => by
      simp only [setStream]
      split
      · rename_i he; simp [lookupStream, he]
      · rename_i he; simp only [lookupStream, if_neg he]
        exact lookup_setStream_self r k v

theorem lookup_setStream_other : ∀ (s : Store) (k k' : String) (v : List SEntry),
    k' ≠ k → lookupStream (setStream s k v) k' = lookupStream s k'
  | [], k, k', v, h => by
      simp only [setStream, lookupStream]
      rw [if_neg (fun he => h he.symm)]
  | (k2, w) :: r, k, k', v, h => by
      simp only [setStream]
      split
      · rename_i he; subst he
        have hne : ¬ (k2 = k') := fun hx => h hx.symm
        simp [lookupStream, hne]
      · simp only [lookupStream]
        split
        · rfl
        · exact lookup_setStream_other r k k' v h

theorem lookup_snoc_self : ∀ (s : Store) (k : String) (v : List SEntry),
    lookupStream s k = none → lookupStream (s ++ [(k, v)]) k = some v
  | [], k, v, _ => by simp [lookupStream]
  | (k2, w) :: r, k, v, h => by
      simp only [lookupStream] at h ⊢
      split
      · rename_i he; rw [if_pos he] at h; cases h
      · rename_i he; rw [if_neg he] at h
        exact lookup_snoc_self r k v h

theorem lookup_snoc_other : ∀ (s : Store) (k k' : String) (v : List SEntry),
    k' ≠ k → lookupStream (s ++ [(k, v)]) k' = lookupStream s k'
  | [], k, k', v, h => by
      simp only [List.nil_append, lookupStream]
      rw [if_neg (fun he => h he.symm)]
  | (k2, w) :: r, k, k', v, h => by
      simp only [List.cons_append, lookupStream]
      split
      · rfl
      · exact lookup_snoc_other r k k' v h

theorem lookup_appendStream_self (s : Store) (k : String) (e : SEntry) :
    lookupStream (appendStream s k e) k = some (entriesAt s k ++ [e]) := by
  cases h : lookupStream s k with
  | some l =>
      simp only [appendStream, entriesAt, h, Option.getD_some]
      exact lookup_setStream_self s k (l ++ [e])
  | none =>
      simp only [appendStream, entriesAt, h, Option.getD_none, List.nil_append]
      exact lookup_snoc_self s k [e] h

theorem lookup_appendStream_other (s : Store) (k k' : String) (e : SEntry)
    (h : k' ≠ k) : lookupStream (appendStream s k e) k' = lookupStream s k' := by
  cases hl : lookupStream s k with
  | some l =>
      simp only [appendStream, hl]
      exact lookup_setStream_other s k k' _ h
  | none =>
      simp only [appendStream, hl]
      exact lookup_snoc_other s k k' _ h

theorem keyNotIn_lookup : ∀ {s : Store} {k : String},
    keyNotIn k s = true → lookupStream s k = none
  | [], k, _ => rfl
  | (k2, w) :: r, k, h => by
      simp only [keyNotIn] at h
      split at h
      · cases h
      · rename_i he
        simp only [lookupStream, if_neg he]
        exact keyNotIn_lookup h

theorem lookup_popStream_self : ∀ (s : Store) (k : String),
    nodupKeysB s = true → lookupStream (popStream s k) k = none
  | [], k, _ => rfl
  | (k2, w) :: r, k, h => by
      simp only [nodupKeysB, Bool.and_eq_true] at h
      simp only [popStream]
      split
      · rename_i he; subst he; exact keyNotIn_lookup h.1
      · rename_i he
        simp only [lookupStream, if_neg he]
        exact lookup_popStream_self r k h.2

theorem lookup_popStream_other : ∀ (s : Store) (k k' : String),
    k' ≠ k → lookupStream (popStream s k) k' = lookupStream s k'
  | [], k, k', _ => rfl
  | (k2, w) :: r, k, k', h => by
      simp only [popStream]
      split
      · rename_i he
        have hne : ¬ (k2 = k') := fun hx => h (hx.symm.trans he)
        simp only [lookupStream]
        rw [if_neg hne]
      · simp only [lookupStream]
        split
        · rfl
        · exact lookup_popStream_other r k k' h

theorem keyNotIn_setStream : ∀ {s : Store} {k k' : String} {v : List SEntry},
    keyNotIn k' s = true → k ≠ k' → keyNotIn k' (setStream s k v) = true
  | [], k, k', v, _, hkk => by simp [setStream, keyNotIn, hkk]
  | (k2, w) :: r, k, k', v, h, hkk => by
      simp only [keyNotIn] at h
      split at h
      · cases h
      · rename_i he
        simp only [setStream]
        split
        · simp [keyNotIn, he, h]
        · simp only [keyNotIn, if_neg he]
          exact keyNotIn_setStream h hkk

theorem keyNotIn_popStream : ∀ {s : Store} {k k' : String},
    keyNotIn k' s = true → keyNotIn k' (popStream s k) = true
  | [], k, k', _ => rfl
  | (k2, w) :: r, k, k', h => by
      simp only [keyNotIn] at h
      split at h
      · cases h
      · rename_i he
        simp only [popStream]
        split
        · exact h
        · simp only [keyNotIn, if_neg he]
          exact keyNotIn_popStream h

theorem keyNotIn_snoc : ∀ {s : Store} {k k' : String} {v : List SEntry},
    keyNotIn k' s = true → k ≠ k' → keyNotIn k' (s ++ [(k, v)]) = true
  | [], k, k', v, _, hkk => by simp [keyNotIn, hkk]
  | (k2, w) :: r, k, k', v, h, hkk => by
      simp only [keyNotIn] at h
      split at h
      · cases h
      · rename_i he
        simp only [List.cons_append, keyNotIn, if_neg he]
        exact keyNotIn_snoc h hkk

theorem nodup_setStream : ∀ {s : Store} {k : String} {v : List SEntry},
    nodupKeysB s = true → nodupKeysB (setStream s k v) = true
  | [], k, v, _ => by simp [setStream, nodupKeysB, keyNotIn]
  | (k2, w) :: r, k, v, h => by
      simp only [nodupKeysB, Bool.and_eq_true] at h
      simp only [setStream]
      split
      · simp [nodupKeysB, h.1, h.2]
      · rename_i he
        simp only [nodupKeysB, Bool.and_eq_true]
        exact ⟨keyNotIn_setStream h.1 (fun hx => he hx.symm), nodup_setStream h.2⟩

theorem nodup_popStream : ∀ {s : Store} {k : String},
    nodupKeysB s = true → nodupKeysB (popStream s k) = true
  | [], k, _ => rfl
  | (k2, w) :: r, k, h => by
      simp only [nodupKeysB, Bool.and_eq_true] at h
      simp only [popStream]
      split
      · exact h.2
      · simp only [nodupKeysB, Bool.and_eq_true]
        exact ⟨keyNotIn_popStream h.1, nodup_popStream h.2⟩

theorem nodup_snoc : ∀ {s : Store} {k : String} {v : List SEntry},
    nodupKeysB s = true → lookupStream s k = none → nodupKeysB (s ++ [(k, v)]) = true
  | [], k, v, _, _ => by simp [nodupKeysB, keyNotIn]
  | (k2, w) :: r, k, v, h, hl => by
      simp only [nodupKeysB, Bool.and_eq_true] at h
      simp only [lookupStream] at hl
      have hne : ¬ (k2 = k) := by
        intro he; rw [if_pos he] at hl; cases hl
      rw [if_neg hne] at hl
      simp only [List.cons_append, nodupKeysB, Bool.and_eq_true]
      exact ⟨keyNotIn_snoc h.1 (fun hx => hne hx.symm), nodup_snoc h.2 hl⟩

theorem nodup_appendStream {s : Store} {k : String} {e : SEntry}
    (h : nodupKeysB s = true) : nodupKeysB (appendStream s k e) = true := by
  unfold appendStream
  cases hl : lookupStream s k with
  | some l => exact nodup_setStream h
  | none => exact nodup_snoc h hl

theorem streamOk_entriesAt : ∀ {s : Store} (k : String),
    storeOkB s = true → streamOkB (entriesAt s k) = true
  | [], k, _ => rfl
  | (k2, w) :: r, k, h => by
      simp only [storeOkB, Bool.and_eq_true] at h
      simp only [entriesAt, lookupStream]
      split
      · exact h.1
      · exact streamOk_entriesAt k h.2

theorem streamOk_append_item {l : List SEntry} {it : Item}
    (h : streamOkB l = true) (hh : hasTab it.hash = false) :
    streamOkB (l ++ [.item it]) = true := by
  induction l with
  | nil => simp [streamOkB, hh]
  | cons e r ih =>
      cases e with
      | item it2 =>
          simp only [streamOkB, Bool.and_eq_true] at h
          simp only [List.cons_append, streamOkB, Bool.and_eq_true]
          exact ⟨h.1, ih h.2⟩
      | tomb t => simp [streamOkB] at h

theorem storeOk_setStream : ∀ {s : Store} {k : String} {v : List SEntry},
    storeOkB s = true → streamOkB v = true → storeOkB (setStream s k v) = true
  | [], k, v, _, hv => by simp [setStream, storeOkB, hv]
  | (k2, w) :: r, k, v, h, hv => by
      simp only [storeOkB, Bool.and_eq_true] at h
      simp only [setStream]
      split
      · simp [storeOkB, hv, h.2]
      · simp only [storeOkB, Bool.and_eq_true]
        exact ⟨h.1, storeOk_setStream h.2 hv⟩

theorem storeOk_popStream : ∀ {s : Store} {k : String},
    storeOkB s = true → storeOkB (popStream s k) = true
  | [], k, _ => rfl
  | (k2, w) :: r, k, h => by
      simp only [storeOkB, Bool.and_eq_true] at h
      simp only [popStream]
      split
      · exact h.2
      · simp only [storeOkB, Bool.and_eq_true]
        exact ⟨h.1, storeOk_popStream h.2⟩

theorem storeOk_snoc {s : Store} {k : String} {v : List SEntry}
    (h : storeOkB s = true) (hv : streamOkB v = true) :
    storeOkB (s ++ [(k, v)]) = true := by
  induction s with
  | nil => simp [storeOkB, hv]
  | cons kv r ih =>
      obtain ⟨k2, w⟩ := kv
      simp only [storeOkB, Bool.and_eq_true] at h
      simp only [List.cons_append, storeOkB, Bool.and_eq_true]
      exact ⟨h.1, ih h.2⟩

theorem storeOk_appendStream {s : Store} {k : String} {it : Item}
    (h : storeOkB s = true) (hh : hasTab it.hash = false) :
    storeOkB (appendStream s k (.item it)) = true := by
  cases hl : lookupStream s k with
  | some l =>
      have hstream : streamOkB l = true := by
        have h2 := streamOk_entriesAt k h (s := s)
        rwa [entriesAt, hl] at h2
      simp only [appendStream, hl]
      exact storeOk_setStream h (streamOk_append_item hstream hh)
  | none =>
      simp only [appendStream, hl]
      exact storeOk_snoc h (by simp [streamOkB, hh])

/-! ## The chain invariant and `verify_chain` -/

/-- The three per-item checks of `verify_chain`, as properties of an item
relative to the previous item's hash. -/
def goodItem (prev : Option String) (it : Item) : Prop :=
  digestOf [jsonDump it.event] ∈ it.children ∧
  (∀ p, prev = some p → p ∈ it.children) ∧
  merkleHash (sortStrings it.children ++ [it.timestamp]) = .ok it.hash

/-- The whole-stream invariant established by honest appends. -/
def chainOk : Option String → List SEntry → Prop
  | _, [] => True
  | prev, .item it :: rest => goodItem prev it ∧ chainOk (some it.hash) rest
  | _, .tomb _ :: _ => False

/-- The hash that the next appended item must link to. -/
def lastHash (prev : Option String) : List SEntry → Option String
  | [] => prev
  | .item it :: rest => lastHash (some it.hash) rest
  | .tomb _ :: rest => lastHash none rest

theorem verifyItems_of_chainOk : ∀ {l : List SEntry} (i : Nat) {prev : Option String},
    chainOk prev l → verifyItems i prev l = .ok true
  | [], _, _, _ => rfl
  | .item it :: rest, i, prev, h => by
      obtain ⟨⟨h1, h2, h3⟩, hrest⟩ := h
      have hev : merkleHash [jsonDump it.event] = .ok (digestOf [jsonDump it.event]) := by
        apply merkleHash_ok
        intro x hx
        have hx2 := List.mem_singleton.mp hx
        subst hx2
        exact jsonDump_noTab it.event
      have hprev : checkPrev i prev it.children = .ok () := by
        cases prev with
        | none => rfl
        | some p => simp [checkPrev, h2 p rfl]
      rw [verifyItems, hev]
      dsimp only
      rw [if_pos h1, hprev]
      dsimp only
      rw [h3]
      dsimp only
      rw [if_pos rfl]
      exact verifyItems_of_chainOk (i + 1) hrest
  | .tomb _ :: _, _, _, h => h.elim

theorem chainOk_append : ∀ {l : List SEntry} {prev : Option String} {it : Item},
    chainOk prev l → goodItem (lastHash prev l) it → chainOk prev (l ++ [.item it])
  | [], _, _, _, hg => ⟨hg, trivial⟩
  | .item _ :: _, _, _, h, hg => ⟨h.1, chainOk_append h.2 hg⟩
  | .tomb _ :: _, _, _, h, _ => h.elim

theorem lastHash_append_item : ∀ (l : List SEntry) (prev : Option String) (it : Item),
    lastHash prev (l ++ [.item it]) = some it.hash
  | [], _, _ => rfl
  | .item _ :: rest, _, it => lastHash_append_item rest _ it
  | .tomb _ :: rest, _, it => lastHash_append_item rest _ it

/-- In a well-formed non-empty stream, the last record is an item whose hash
is what `lastHash` reports, and that hash is tab-free. -/
theorem streamOk_lastD : ∀ (e : SEntry) (es : List SEntry),
    streamOkB (e :: es) = true →
    ∃ lit : Item, lastD e es = .item lit ∧
      (∀ prev, lastHash prev (e :: es) = some lit.hash) ∧ hasTab lit.hash = false
  | e, [], h => by
      cases e with
      | item it =>
          simp only [streamOkB, Bool.and_eq_true] at h
          exact ⟨it, rfl, fun prev => rfl, by simpa using h.1⟩
      | tomb t => simp [streamOkB] at h
  | e, e2 :: es, h => by
      cases e with
      | item it =>
          simp only [streamOkB, Bool.and_eq_true] at h
          obtain ⟨lit, h1, h2, h3⟩ := streamOk_lastD e2 es h.2
          exact ⟨lit, h1, fun prev => h2 _, h3⟩
      | tomb t => simp [streamOkB] at h

theorem digestOf_noTab (l : List String) : hasTab (digestOf l) = false :=
  hexOfBytes_hasTab _

theorem digestOf_allHex (l : List String) : allHexB (digestOf l) = true :=
  hexOfBytes_allHex _

/-- Success and characterization of one `event_to_session` append. -/
theorem eventToSession_spec (ev : Json) (sess : JObj) (extra : List String)
    (label : Option String) (s : Store) (clk : List String)
    (hextra : ∀ c ∈ extra, hasTab c = false)
    (hts : hasTab (takeTs clk).1 = false)
    (hstream : streamOkB (entriesAt s (sessionKey sess)) = true) :
    ∃ it : Item,
      eventToSession ev sess extra label s clk =
        .ok (it, appendStream s (sessionKey sess) (.item it), (takeTs clk).2) ∧
      it.event = ev ∧ it.timestamp = (takeTs clk).1 ∧ it.label = label ∧
      hasTab it.hash = false ∧ allHexB it.hash = true ∧
      goodItem (lastHash none (entriesAt s (sessionKey sess))) it := by
  have hev : merkleHash [jsonDump ev] = .ok (digestOf [jsonDump ev]) := by
    apply merkleHash_ok
    intro x hx
    have hx2 := List.mem_singleton.mp hx
    subst hx2
    exact jsonDump_noTab ev
  -- resolve the previous-item link
  have hlink : ∃ prevL : List String,
      linkChildren (extra ++ [digestOf [jsonDump ev]]) (mostRecent s (sessionKey sess)) =
        .ok (extra ++ [digestOf [jsonDump ev]] ++ prevL) ∧
      (∀ c ∈ prevL, hasTab c = false) ∧
      (∀ p, lastHash none (entriesAt s (sessionKey sess)) = some p → p ∈ prevL) := by
    cases hl : lookupStream s (sessionKey sess) with
    | none =>
        refine ⟨[], ?_, by simp, ?_⟩
        · simp [linkChildren, mostRecent, hl]
        · intro p hp
          simp [entriesAt, hl, lastHash] at hp
    | some l =>
        cases l with
        | nil =>
            refine ⟨[], ?_, by simp, ?_⟩
            · simp [linkChildren, mostRecent, hl]
            · intro p hp
              simp [entriesAt, hl, lastHash] at hp
        | cons e es =>
            have hs2 : streamOkB (e :: es) = true := by
              rwa [entriesAt, hl] at hstream
            obtain ⟨lit, hld, hlh, hlt⟩ := streamOk_lastD e es hs2
            refine ⟨[lit.hash], ?_, ?_, ?_⟩
            · simp [linkChildren, mostRecent, hl, hld, entryHash, Except.map]
            · intro c hc
              have hc2 := List.mem_singleton.mp hc
              subst hc2
              exact hlt
            · intro p hp
              rw [entriesAt, hl] at hp
              simp only [Option.getD_some] at hp
              rw [hlh none] at hp
              cases hp
              simp
  obtain ⟨prevL, hlinkEq, hprevTab, hprevMem⟩ := hlink
  set c2 := extra ++ [digestOf [jsonDump ev]] ++ prevL with hc2
  have hc2tab : ∀ c ∈ c2, hasTab c = false := by
    intro c hc
    rw [hc2] at hc
    rcases List.mem_append.mp hc with hc1 | hc1
    · rcases List.mem_append.mp hc1 with hc3 | hc3
      · exact hextra c hc3
      · have := List.mem_singleton.mp hc3
        subst this
        exact digestOf_noTab _
    · exact hprevTab c hc1
  have hnh : merkleHash (sortStrings c2 ++ [(takeTs clk).1]) =
      .ok (digestOf (sortStrings c2 ++ [(takeTs clk).1])) := by
    apply merkleHash_ok
    intro x hx
    rcases List.mem_append.mp hx with hx1 | hx1
    · exact hc2tab x (mem_sortStrings.mp hx1)
    · have := List.mem_singleton.mp hx1
      subst this
      exact hts
  refine ⟨⟨c2, digestOf (sortStrings c2 ++ [(takeTs clk).1]), (takeTs clk).1, ev, label⟩,
    ?_, rfl, rfl, rfl, digestOf_noTab _, digestOf_allHex _, ?_, ?_, ?_⟩
  · rw [eventToSession, hev]
    dsimp only
    rw [hlinkEq]
    dsimp only
    rw [hnh]
  · -- event hash is among the children
    rw [hc2]
    simp
  · -- previous hash is among the children
    intro p hp
    have := hprevMem p hp
    rw [hc2]
    simp only [List.mem_append]
    exact Or.inr this
  · -- the node hash recomputes
    exact hnh

/-! ## Clock and counting helpers -/

/-- Is every pending timestamp tab-free? -/
def clkOkB : List String → Bool
  | [] => true
  | t :: r => !hasTab t && clkOkB r

theorem clkOk_head {clk : List String} (h : clkOkB clk = true) :
    hasTab (takeTs clk).1 = false := by
  cases clk with
  | nil => rfl
  | cons t r =>
      simp only [clkOkB, Bool.and_eq_true] at h
      simpa [takeTs] using h.1

theorem clkOk_tail {clk : List String} (h : clkOkB clk = true) :
    clkOkB (takeTs clk).2 = true := by
  cases clk with
  | nil => rfl
  | cons t r =>
      simp only [clkOkB, Bool.and_eq_true] at h
      simpa [takeTs] using h.2

/-- Is this record a `child_session_finished` item? -/
def isCSFB : SEntry → Bool
  | .item it =>
      match it.event with
      | .obj kvs =>
          match oGet kvs "type" with
          | some (.str t) => t = "child_session_finished"
          | _ => false
      | _ => false
  | .tomb _ => false

/-- Number of `child_session_finished` records in one stream. -/
def countCSFL (l : List SEntry) : Nat := (l.filter isCSFB).length

/-- Number of `child_session_finished` records in the whole store. -/
def countCSF : Store → Nat
  | [] => 0
  | (_, l) :: r => countCSFL l + countCSF r

theorem countCSFL_append (l1 l2 : List SEntry) :
    countCSFL (l1 ++ l2) = countCSFL l1 + countCSFL l2 := by
  simp [countCSFL, List.filter_append]

theorem countCSF_setStream : ∀ {s : Store} {k : String} {l v : List SEntry},
    lookupStream s k = some l →
    countCSF (setStream s k v) + countCSFL l = countCSF s + countCSFL v
  | [], k, l, v, h => by cases h
  | (k2, w) :: r, k, l, v, h => by
      simp only [lookupStream] at h
      simp only [setStream]
      split
      · rename_i he
        rw [if_pos he] at h
        cases h
        simp only [countCSF]
        omega
      · rename_i he
        rw [if_neg he] at h
        simp only [countCSF]
        have ih := countCSF_setStream (v := v) h
        omega

theorem countCSF_snoc (s : Store) (k : String) (v : List SEntry) :
    countCSF (s ++ [(k, v)]) = countCSF s + countCSFL v := by
  induction s with
  | nil => simp [countCSF]
  | cons kv r ih =>
      obtain ⟨k2, w⟩ := kv
      show countCSFL w + countCSF (r ++ [(k, v)]) = countCSFL w + countCSF r + countCSFL v
      rw [ih]
      omega

theorem countCSF_setStream_absent : ∀ {s : Store} {k : String} {v : List SEntry},
    lookupStream s k = none → countCSF (setStream s k v) = countCSF s + countCSFL v
  | [], k, v, _ => by simp [setStream, countCSF]
  | (k2, w) :: r, k, v, h => by
      simp only [lookupStream] at h
      simp only [setStream]
      split
      · rename_i he; rw [if_pos he] at h; cases h
      · rename_i he
        rw [if_neg he] at h
        have ih := countCSF_setStream_absent (v := v) h
        simp only [countCSF]
        omega

theorem countCSF_appendStream (s : Store) (k : String) (e : SEntry) :
    countCSF (appendStream s k e) = countCSF s + (if isCSFB e then 1 else 0) := by
  cases hl : lookupStream s k with
  | some l =>
      simp only [appendStream, hl]
      have h1 := countCSF_setStream (v := l ++ [e]) hl
      rw [countCSFL_append] at h1
      have h2 : countCSFL [e] = if isCSFB e then 1 else 0 := by
        simp only [countCSFL, List.filter]
        split <;> simp_all
      omega
  | none =>
      simp only [appendStream, hl, countCSF_snoc]
      have h2 : countCSFL [e] = if isCSFB e then 1 else 0 := by
        simp only [countCSFL, List.filter]
        split <;> simp_all
      omega

theorem countCSF_popStream : ∀ {s : Store} {k : String} {l : List SEntry},
    nodupKeysB s = true → lookupStream s k = some l →
    countCSF (popStream s k) + countCSFL l = countCSF s
  | [], k, l, _, h => by cases h
  | (k2, w) :: r, k, l, hnd, h => by
      simp only [nodupKeysB, Bool.and_eq_true] at hnd
      simp only [lookupStream] at h
      simp only [popStream]
      split
      · rename_i he
        rw [if_pos he] at h
        cases h
        simp only [countCSF]
        omega
      · rename_i he
        rw [if_neg he] at h
        simp only [countCSF]
        have ih := countCSF_popStream hnd.2 h
        omega

/-! ## Parent propagation targets -/

/-- The `(category, value)` occurrences that `close_session` propagates to,
in iteration order and with multiplicity. -/
def parentTargets : JObj → List (String × Json)
  | .nil => []
  | .cons k v tl =>
      (if k ∈ CATEGORIES then (listify v).map (fun x => (k, x)) else []) ++ parentTargets tl

/-- The storage keys of those parent streams. -/
def parentKeys (o : JObj) : List String :=
  (parentTargets o).map fun kv => sessionKey (JObj.cons kv.1 kv.2 .nil)

/-- An all-hex string (a digest) is never a parent-stream key. -/
theorem allHex_not_mem_parentKeys {d : String} (hd : allHexB d = true) (o : JObj) :
    d ∉ parentKeys o := by
  intro hmem
  simp only [parentKeys, List.mem_map] at hmem
  obtain ⟨kv, _, heq⟩ := hmem
  exact allHex_ne_objDump hd _ heq.symm

/-! ## Specification of the building blocks -/

theorem entriesAt_appendStream_self (s : Store) (k : String) (e : SEntry) :
    entriesAt (appendStream s k e) k = entriesAt s k ++ [e] := by
  simp [entriesAt, lookup_appendStream_self]

theorem entriesAt_appendStream_other (s : Store) (k k' : String) (e : SEntry)
    (h : k' ≠ k) : entriesAt (appendStream s k e) k' = entriesAt s k' := by
  simp [entriesAt, lookup_appendStream_other s k k' e h]

/-- Success and effect of replaying a list of events into one session stream
(`replayBuffer`, also the event loop of claim C1). -/
theorem replayBuffer_spec (sess : JObj) : ∀ (evs : List Json) (s : Store) (clk : List String),
    clkOkB clk = true → storeOkB s = true → nodupKeysB s = true →
    ∃ (its : List Item) (s' : Store) (clk' : List String),
      replayBuffer sess evs s clk = .ok (s', clk') ∧
      storeOkB s' = true ∧ nodupKeysB s' = true ∧ clkOkB clk' = true ∧
      its.map Item.event = evs ∧
      entriesAt s' (sessionKey sess) =
        entriesAt s (sessionKey sess) ++ its.map SEntry.item ∧
      (∀ k, k ≠ sessionKey sess → lookupStream s' k = lookupStream s k) ∧
      (chainOk none (entriesAt s (sessionKey sess)) →
        chainOk none (entriesAt s' (sessionKey sess)))
  | [], s, clk, hclk, hok, hnd =>
      ⟨[], s, clk, rfl, hok, hnd, hclk, rfl, by simp, fun _ _ => rfl, id⟩
  | e :: rest, s, clk, hclk, hok, hnd => by
      obtain ⟨it, heq, hevt, hts, hlbl, htab, hhex, hgood⟩ :=
        eventToSession_spec e sess [] none s clk (by simp) (clkOk_head hclk)
          (streamOk_entriesAt _ hok)
      obtain ⟨its', s', clk', ih1, ih2, ih3, ih4, ih5, ih6, ih7, ih8⟩ :=
        replayBuffer_spec sess rest (appendStream s (sessionKey sess) (.item it))
          (takeTs clk).2 (clkOk_tail hclk) (storeOk_appendStream hok htab)
          (nodup_appendStream hnd)
      refine ⟨it :: its', s', clk', ?_, ih2, ih3, ih4, ?_, ?_, ?_, ?_⟩
      · simp only [replayBuffer, heq]
        exact ih1
      · simp [ih5, hevt]
      · rw [ih6, entriesAt_appendStream_self]
        simp
      · intro k hk
        rw [ih7 k hk, lookup_appendStream_other s _ k _ hk]
      · intro hchain
        apply ih8
        rw [entriesAt_appendStream_self]
        exact chainOk_append hchain hgood

theorem isCSFB_of_event {it : Item} {sh : String} {sess : JObj}
    (h : it.event = csfEvent sh sess) : isCSFB (.item it) = true := by
  simp [isCSFB, h, csfEvent, oGet]

theorem isCSFB_close {it : Item} {sess : JObj}
    (h : it.event = closeEvent sess) : isCSFB (.item it) = false := by
  simp [isCSFB, h, closeEvent, oGet]

/-- Success and effect of propagating one category's values. -/
theorem propagateVals_spec (key : String) (sh : String) (sess : JObj) :
    ∀ (vals : List Json) (s : Store) (clk : List String),
    clkOkB clk = true → hasTab sh = false →
    storeOkB s = true → nodupKeysB s = true →
    ∃ (s' : Store) (clk' : List String),
      propagateVals key vals sh sess s clk = .ok (s', clk') ∧
      storeOkB s' = true ∧ nodupKeysB s' = true ∧ clkOkB clk' = true ∧
      countCSF s' = countCSF s + vals.length ∧
      (∀ k, k ∉ vals.map (fun v => sessionKey (JObj.cons key v .nil)) →
        lookupStream s' k = lookupStream s k)
  | [], s, clk, hclk, _, hok, hnd =>
      ⟨s, clk, rfl, hok, hnd, hclk, by simp, fun _ _ => rfl⟩
  | v :: rest, s, clk, hclk, hsh, hok, hnd => by
      obtain ⟨it, heq, hevt, hts, hlbl, htab, hhex, hgood⟩ :=
        eventToSession_spec (csfEvent sh sess) (JObj.cons key v .nil) [sh]
          (some (key ++ ":" ++ jsonDump v)) s clk
          (by intro c hc; have hc2 := List.mem_singleton.mp hc; subst hc2; exact hsh)
          (clkOk_head hclk) (streamOk_entriesAt _ hok)
      obtain ⟨s', clk', ih1, ih2, ih3, ih4, ih5, ih6⟩ :=
        propagateVals_spec key sh sess rest
          (appendStream s (sessionKey (JObj.cons key v .nil)) (.item it))
          (takeTs clk).2 (clkOk_tail hclk) hsh (storeOk_appendStream hok htab)
          (nodup_appendStream hnd)
      refine ⟨s', clk', ?_, ih2, ih3, ih4, ?_, ?_⟩
      · simp only [propagateVals, heq]
        exact ih1
      · have hadd := countCSF_appendStream s (sessionKey (JObj.cons key v .nil)) (.item it)
        rw [isCSFB_of_event hevt] at hadd
        simp at hadd
        rw [ih5, hadd, List.length_cons]
        omega
      · intro k hk
        simp only [List.map_cons, List.mem_cons, not_or] at hk
        rw [ih6 k (by simpa using hk.2),
            lookup_appendStream_other s _ k _ hk.1]

/-- Success and effect of the whole parent-propagation loop. -/
theorem propagate_spec (sh : String) (sess : JObj) :
    ∀ (entries : JObj) (s : Store) (clk : List String),
    clkOkB clk = true → hasTab sh = false →
    storeOkB s = true → nodupKeysB s = true →
    ∃ (s' : Store) (clk' : List String),
      propagate entries sh sess s clk = .ok (s', clk') ∧
      storeOkB s' = true ∧ nodupKeysB s' = true ∧ clkOkB clk' = true ∧
      countCSF s' = countCSF s + (parentTargets entries).length ∧
      (∀ k, k ∉ parentKeys entries → lookupStream s' k = lookupStream s k)
  | .nil, s, clk, hclk, _, hok, hnd =>
      ⟨s, clk, rfl, hok, hnd, hclk, by simp [parentTargets], fun _ _ => rfl⟩
  | .cons k0 v tl, s, clk, hclk, hsh, hok, hnd => by
      by_cases hcat : k0 ∈ CATEGORIES
      · obtain ⟨s1, clk1, hv1, hv2, hv3, hv4, hv5, hv6⟩ :=
          propagateVals_spec k0 sh sess (listify v) s clk hclk hsh hok hnd
        obtain ⟨s', clk', ih1, ih2, ih3, ih4, ih5, ih6⟩ :=
          propagate_spec sh sess tl s1 clk1 hv4 hsh hv2 hv3
        refine ⟨s', clk', ?_, ih2, ih3, ih4, ?_, ?_⟩
        · simp only [propagate, if_pos hcat, hv1]
          exact ih1
        · rw [ih5, hv5]
          simp [parentTargets, if_pos hcat]
          omega
        · intro k hk
          have hk2 : k ∉ parentKeys tl ∧
              k ∉ (listify v).map (fun x => sessionKey (JObj.cons k0 x .nil)) := by
            simp only [parentKeys, parentTargets, if_pos hcat, List.map_append,
              List.mem_append, not_or, List.map_map] at hk
            refine ⟨hk.2, ?_⟩
            intro hmem
            apply hk.1
            simpa [Function.comp] using hmem
          rw [ih6 k hk2.1, hv6 k hk2.2]
      · obtain ⟨s', clk', ih1, ih2, ih3, ih4, ih5, ih6⟩ :=
          propagate_spec sh sess tl s clk hclk hsh hok hnd
        refine ⟨s', clk', ?_, ih2, ih3, ih4, ?_, ?_⟩
        · simp only [propagate, if_neg hcat]
          exact ih1
        · rw [ih5]
          simp [parentTargets, if_neg hcat]
        · intro k hk
          apply ih6
          simpa [parentKeys, parentTargets, if_neg hcat] using hk

/-- Success and effect of `close_session` with parent propagation. -/
theorem closeSession_spec (sess : JObj) (s : Store) (clk : List String)
    (hclk : clkOkB clk = true) (hok : storeOkB s = true) (hnd : nodupKeysB s = true) :
    ∃ (cit : Item) (s' : Store) (clk' : List String),
      closeSession sess false s clk = .ok (cit.hash, s', clk') ∧
      cit.event = closeEvent sess ∧
      allHexB cit.hash = true ∧
      storeOkB s' = true ∧ nodupKeysB s' = true ∧ clkOkB clk' = true ∧
      goodItem (lastHash none (entriesAt s (sessionKey sess))) cit ∧
      lookupStream s' cit.hash =
        some (entriesAt s (sessionKey sess) ++ [.item cit]) ∧
      (sessionKey sess ∉ parentKeys sess →
        lookupStream s' (sessionKey sess) = none) ∧
      (lookupStream s cit.hash = none →
        countCSF s' = countCSF s + (parentTargets sess).length) := by
  obtain ⟨it, heq, hevt, hts, hlbl, htab, hhex, hgood⟩ :=
    eventToSession_spec (closeEvent sess) sess [] (some "close") s clk (by simp)
      (clkOk_head hclk) (streamOk_entriesAt _ hok)
  set sid := sessionKey sess with hsid
  set s1 := appendStream s sid (.item it) with hs1
  have hok1 : storeOkB s1 = true := storeOk_appendStream hok htab
  have hnd1 : nodupKeysB s1 = true := nodup_appendStream hnd
  have hclk1 : clkOkB (takeTs clk).2 = true := clkOk_tail hclk
  have hshsid : it.hash ≠ sid := fun he => allHex_ne_objDump hhex sess he
  have hl1 : lookupStream s1 sid = some (entriesAt s sid ++ [.item it]) :=
    lookup_appendStream_self s sid (.item it)
  have hrn : renameStream s1 sid it.hash =
      .ok (setStream (popStream s1 sid) it.hash (entriesAt s sid ++ [.item it])) := by
    simp only [renameStream, if_neg hshsid, hl1]
  set s2 := setStream (popStream s1 sid) it.hash (entriesAt s sid ++ [.item it]) with hs2
  have hstreamL : streamOkB (entriesAt s sid ++ [.item it]) = true :=
    streamOk_append_item (streamOk_entriesAt sid hok) htab
  have hok2 : storeOkB s2 = true :=
    storeOk_setStream (storeOk_popStream hok1) hstreamL
  have hnd2 : nodupKeysB s2 = true := nodup_setStream (nodup_popStream hnd1)
  have hl2h : lookupStream s2 it.hash = some (entriesAt s sid ++ [.item it]) :=
    lookup_setStream_self _ _ _
  have hl2sid : lookupStream s2 sid = none := by
    rw [hs2, lookup_setStream_other _ _ _ _ (fun he => hshsid he.symm)]
    exact lookup_popStream_self s1 sid hnd1
  obtain ⟨s3, clk3, hp1, hp2, hp3, hp4, hp5, hp6⟩ :=
    propagate_spec it.hash sess sess s2 (takeTs clk).2 hclk1 htab hok2 hnd2
  refine ⟨it, s3, clk3, ?_, hevt, hhex, hp2, hp3, hp4, hgood, ?_, ?_, ?_⟩
  · simp only [closeSession, heq, hrn, Bool.false_eq_true, if_false]
    rw [hp1]
  · rw [hp6 it.hash (allHex_not_mem_parentKeys hhex sess), hl2h]
  · intro hcol
    rw [hp6 sid hcol, hl2sid]
  · intro hfresh
    have hfresh1 : lookupStream s1 it.hash = none := by
      rw [hs1, lookup_appendStream_other s sid it.hash _ hshsid]
      exact hfresh
    have hfreshp : lookupStream (popStream s1 sid) it.hash = none := by
      rw [lookup_popStream_other s1 sid it.hash hshsid]
      exact hfresh1
    have hcount1 : countCSF s1 = countCSF s := by
      rw [hs1, countCSF_appendStream, isCSFB_close hevt]
      simp
    have hcount2 : countCSF s2 = countCSF s1 := by
      have hpop := countCSF_popStream hnd1 hl1
      have hset := countCSF_setStream_absent
        (v := entriesAt s sid ++ [.item it]) hfreshp
      rw [hs2, hset]
      omega
    rw [hp5, hcount2, hcount1]

/-- Run the full session lifecycle and then `verify_chain` on the final hash. -/
def runAndVerify (sess : JObj) (metadata : Option Json) (evs : List Json)
    (s : Store) (clk : List String) : Except MError Bool :=
  match runSession sess metadata evs s clk with
  | .error e => .error e
  | .ok (fh, s', _) => verifyChain s' fh

/-- **C1.** For every event sequence appended to a fresh session via `start`,
then `event_to_session` calls, then `close_session` (same descriptor
throughout), `verify_chain` on the returned final hash returns `True`:
every item's `children` contain the hash of the canonical JSON of its event,
every non-first item's `children` contain the previous item's `hash`, and
every item's `hash` is the hash of its sorted children joined with TAB
followed by its timestamp — exactly the three checks `verify_chain` replays. -/
theorem chain_build_then_verify (sess : JObj) (metadata : Option Json)
    (evs : List Json) (s : Store) (clk : List String)
    (hfresh : lookupStream s (sessionKey sess) = none)
    (hclk : clkOkB clk = true)
    (hok : storeOkB s = true)
    (hnd : nodupKeysB s = true) :
    runAndVerify sess metadata evs s clk = .ok true := by
  obtain ⟨it0, heq0, hevt0, hts0, hlbl0, htab0, hhex0, hgood0⟩ :=
    eventToSession_spec (startEvent sess metadata none) sess [] (some "start") s clk
      (by simp) (clkOk_head hclk) (streamOk_entriesAt _ hok)
  have heqS : startM sess metadata none s clk =
      .ok (it0, appendStream s (sessionKey sess) (.item it0), (takeTs clk).2) := heq0
  set sid := sessionKey sess with hsid
  have hent0 : entriesAt s sid = [] := by simp [entriesAt, hfresh]
  set s1 := appendStream s sid (.item it0) with hs1
  have hchain1 : chainOk none (entriesAt s1 sid) := by
    rw [hs1, entriesAt_appendStream_self, hent0]
    refine ⟨?_, trivial⟩
    rw [hent0] at hgood0
    exact hgood0
  obtain ⟨its, s2, clk2, hr1, hr2, hr3, hr4, hr5, hr6, hr7, hr8⟩ :=
    replayBuffer_spec sess evs s1 (takeTs clk).2 (clkOk_tail hclk)
      (storeOk_appendStream hok htab0) (nodup_appendStream hnd)
  obtain ⟨cit, s3, clk3, hc1, hc2, hc3, hc4, hc5, hc6, hc7, hc8, hc9, hc10⟩ :=
    closeSession_spec sess s2 clk2 hr4 hr2 hr3
  have hchain2 : chainOk none (entriesAt s2 sid) := hr8 hchain1
  have hchain3 : chainOk none (entriesAt s2 sid ++ [.item cit]) :=
    chainOk_append hchain2 hc7
  obtain ⟨e, es, hL⟩ : ∃ e es, entriesAt s2 sid ++ [.item cit] = e :: es := by
    cases hx : entriesAt s2 sid ++ [.item cit] with
    | nil => exact absurd hx (by simp)
    | cons e es => exact ⟨e, es, rfl⟩
  have hverify : verifyChain s3 cit.hash = .ok true := by
    rw [verifyChain, hc8, hL]
    dsimp only
    rw [← hL]
    exact verifyItems_of_chainOk 0 hchain3
  have hrun : runSession sess metadata evs s clk = .ok (cit.hash, s3, clk3) := by
    rw [runSession, heqS]
    dsimp only
    rw [show appendEventList sess evs s1 (takeTs clk).2 =
        replayBuffer sess evs s1 (takeTs clk).2 from rfl]
    rw [hr1]
    dsimp only
    exact hc1
  rw [runAndVerify, hrun]
  dsimp only
  exact hverify

/-- **C1 witness.**  A concrete two-category session with one payload event. -/
theorem chain_build_then_verify_witness :
    runAndVerify
      (JObj.cons "student" (.arr (JArr.cons (.str "A") .nil))
        (JObj.cons "tool" (.arr (JArr.cons (.str "editor") .nil)) .nil))
      none
      [Json.obj (JObj.cons "type" (.str "event") (JObj.cons "payload" (.str "x") .nil))]
      [] ["2025-01-01T00:00:00", "2025-01-01T00:00:01", "2025-01-01T00:00:02",
          "2025-01-01T00:00:03", "2025-01-01T00:00:04"] = .ok true :=
  chain_build_then_verify _ none _ [] _ rfl (by decide) rfl rfl

/-! ## Inversion of the verification loop (for claim C2) -/

/-- Is every string in the list tab-free? -/
def noTabL : List String → Bool
  | [] => true
  | s :: r => !hasTab s && noTabL r

theorem noTabL_mem : ∀ {l : List String}, noTabL l = true → ∀ s ∈ l, hasTab s = false
  | [], _, s, hs => by cases hs
  | t :: r, h, s, hs => by
      simp only [noTabL, Bool.and_eq_true] at h
      rcases List.mem_cons.mp hs with rfl | hs2
      · simpa using h.1
      · exact noTabL_mem h.2 s hs2

theorem merkleHash_ok_eq {l : List String} {d : String}
    (h : merkleHash l = .ok d) : d = digestOf l := by
  simp only [merkleHash] at h
  cases hf : findTab l with
  | some x => rw [hf] at h; cases h
  | none => rw [hf] at h; cases h; rfl

theorem verifyItems_cons_ok {i : Nat} {prev : Option String} {it : Item}
    {rest : List SEntry} (h : verifyItems i prev (.item it :: rest) = .ok true) :
    merkleHash [jsonDump it.event] = .ok (digestOf [jsonDump it.event]) ∧
    digestOf [jsonDump it.event] ∈ it.children ∧
    checkPrev i prev it.children = .ok () ∧
    merkleHash (sortStrings it.children ++ [it.timestamp]) = .ok it.hash ∧
    verifyItems (i + 1) (some it.hash) rest = .ok true := by
  rw [verifyItems] at h
  cases hev : merkleHash [jsonDump it.event] with
  | error e => rw [hev] at h; simp at h
  | ok eh =>
      have heh : eh = digestOf [jsonDump it.event] := merkleHash_ok_eq hev
      subst heh
      rw [hev] at h
      dsimp only at h
      split at h
      · rename_i hmem
        cases hcp : checkPrev i prev it.children with
        | error e => rw [hcp] at h; simp at h
        | ok u =>
            cases u
            rw [hcp] at h
            dsimp only at h
            cases hexp : merkleHash (sortStrings it.children ++ [it.timestamp]) with
            | error e => rw [hexp] at h; simp at h
            | ok expected =>
                rw [hexp] at h
                dsimp only at h
                split at h
                · rename_i heq
                  refine ⟨rfl, hmem, rfl, ?_, h⟩
                  rw [heq]
                · simp at h
      · simp at h

theorem chainOk_of_verifyItems : ∀ {l : List SEntry} {i : Nat} {prev : Option String},
    verifyItems i prev l = .ok true → chainOk prev l
  | [], _, _, _ => trivial
  | .tomb t :: rest, i, prev, h => by rw [verifyItems] at h; cases h
  | .item it :: rest, i, prev, h => by
      obtain ⟨hev, hmem, hcp, hexp, hrest⟩ := verifyItems_cons_ok h
      refine ⟨⟨hmem, ?_, hexp⟩, chainOk_of_verifyItems hrest⟩
      intro p hp
      subst hp
      simp only [checkPrev] at hcp
      split at hcp
      · exact (by assumption)
      · cases hcp

theorem chainOk_append_iff : ∀ (l1 l2 : List SEntry) (prev : Option String),
    chainOk prev (l1 ++ l2) ↔ chainOk prev l1 ∧ chainOk (lastHash prev l1) l2
  | [], l2, prev => by simp [chainOk, lastHash]
  | .item it :: r, l2, prev => by
      have ih := chainOk_append_iff r l2 (some it.hash)
      show goodItem prev it ∧ chainOk (some it.hash) (r ++ l2) ↔ _
      constructor
      · rintro ⟨hg, hc⟩
        exact ⟨⟨hg, (ih.mp hc).1⟩, (ih.mp hc).2⟩
      · rintro ⟨⟨hg, hc1⟩, hc2⟩
        exact ⟨hg, ih.mpr ⟨hc1, hc2⟩⟩
  | .tomb t :: r, l2, prev => by
      constructor
      · intro h
        exact h.elim
      · intro h
        exact h.1.elim

/-- Composition of the verification walk across an already-valid prefix. -/
theorem verifyItems_append : ∀ (l1 l2 : List SEntry) (i : Nat) (prev : Option String),
    verifyItems i prev l1 = .ok true →
    verifyItems i prev (l1 ++ l2) = verifyItems (i + l1.length) (lastHash prev l1) l2
  | [], l2, i, prev, _ => by simp [lastHash]
  | .tomb t :: r, l2, i, prev, h => by rw [verifyItems] at h; cases h
  | .item it :: r, l2, i, prev, h => by
      obtain ⟨hev, hmem, hcp, hexp, hrest⟩ := verifyItems_cons_ok h
      have ih := verifyItems_append r l2 (i + 1) (some it.hash) hrest
      rw [List.cons_append, verifyItems, hev]
      dsimp only
      rw [if_pos hmem, hcp]
      dsimp only
      rw [hexp]
      dsimp only
      rw [if_pos rfl, ih]
      have harith : i + 1 + r.length = i + (r.length + 1) := by omega
      rw [harith]
      rfl

/-- The three per-item checks as an executable test (used to state when a
mutation is detectable). -/
def prevOkB (prev : Option String) (children : List String) : Bool :=
  match prev with
  | some p => p ∈ children
  | none => true

def checksPassB (prev : Option String) (it : Item) : Bool :=
  (match merkleHash [jsonDump it.event] with
   | .ok eh => eh ∈ it.children
   | .error _ => false) &&
  prevOkB prev it.children &&
  (match merkleHash (sortStrings it.children ++ [it.timestamp]) with
   | .ok expected => it.hash = expected
   | .error _ => false)

/-- Which item index does a verification error report? -/
def errIndex : MError → Option Nat
  | .eventHashNotInChildren i _ => some i
  | .prevHashNotInChildren i _ => some i
  | .hashMismatch i _ _ => some i
  | _ => none

/-- A detectably-broken item makes the walk fail at its own index. -/
theorem verifyItems_broken_item (i : Nat) (prev : Option String) (it : Item)
    (post : List SEntry)
    (hfail : checksPassB prev it = false)
    (hct : noTabL it.children = true)
    (hts : hasTab it.timestamp = false) :
    ∃ e, verifyItems i prev (.item it :: post) = .error e ∧ errIndex e = some i := by
  have hev : merkleHash [jsonDump it.event] = .ok (digestOf [jsonDump it.event]) := by
    apply merkleHash_ok
    intro x hx
    have hx2 := List.mem_singleton.mp hx
    subst hx2
    exact jsonDump_noTab it.event
  have hsorted : merkleHash (sortStrings it.children ++ [it.timestamp]) =
      .ok (digestOf (sortStrings it.children ++ [it.timestamp])) := by
    apply merkleHash_ok
    intro x hx
    rcases List.mem_append.mp hx with hx1 | hx1
    · exact noTabL_mem hct x (mem_sortStrings.mp hx1)
    · have hx2 := List.mem_singleton.mp hx1
      subst hx2
      exact hts
  by_cases hmem : digestOf [jsonDump it.event] ∈ it.children
  · by_cases hprev : prevOkB prev it.children = true
    · -- then the hash equality must be the failing check
      have hcp : checkPrev i prev it.children = .ok () := by
        cases prev with
        | none => rfl
        | some p =>
            simp only [prevOkB] at hprev
            have hpmem : p ∈ it.children := of_decide_eq_true hprev
            simp [checkPrev, hpmem]
      have hne : it.hash ≠ digestOf (sortStrings it.children ++ [it.timestamp]) := by
        intro he
        rw [checksPassB, hev, hsorted] at hfail
        simp [hmem, hprev, he] at hfail
      refine ⟨.hashMismatch i (digestOf (sortStrings it.children ++ [it.timestamp])) it.hash,
        ?_, rfl⟩
      rw [verifyItems, hev]
      dsimp only
      rw [if_pos hmem, hcp]
      dsimp only
      rw [hsorted]
      dsimp only
      rw [if_neg hne]
    · -- the previous-hash check fails
      have hp : ∃ p, prev = some p ∧ p ∉ it.children := by
        cases prev with
        | none => simp [prevOkB] at hprev
        | some p =>
            simp only [prevOkB] at hprev
            exact ⟨p, rfl, fun hc => hprev (decide_eq_true hc)⟩
      obtain ⟨p, rfl, hpnot⟩ := hp
      refine ⟨.prevHashNotInChildren i p, ?_, rfl⟩
      rw [verifyItems, hev]
      dsimp only
      rw [if_pos hmem]
      have hcp : checkPrev i (some p) it.children = .error (.prevHashNotInChildren i p) := by
        simp [checkPrev, hpnot]
      rw [hcp]
  · refine ⟨.eventHashNotInChildren i (digestOf [jsonDump it.event]), ?_, rfl⟩
    rw [verifyItems, hev]
    dsimp only
    rw [if_neg hmem]

instance : Inhabited Item := ⟨⟨[], "", "", Json.null, none⟩⟩

instance {ε α : Type} [DecidableEq ε] [DecidableEq α] : DecidableEq (Except ε α) := fun a b =>
  match a, b with
  | .error e1, .error e2 =>
      if h : e1 = e2 then isTrue (by rw [h])
      else isFalse (by intro hc; cases hc; exact h rfl)
  | .ok x, .ok y =>
      if h : x = y then isTrue (by rw [h])
      else isFalse (by intro hc; cases hc; exact h rfl)
  | .error _, .ok _ => isFalse (by intro hc; cases hc)
  | .ok _, .error _ => isFalse (by intro hc; cases hc)

/-- Reduce `verify_chain` on a single-stream store to the item walk. -/
theorem verifyChain_singleton (key : String) (e0 : SEntry) (es : List SEntry) :
    verifyChain [(key, e0 :: es)] key = verifyItems 0 none (e0 :: es) := by
  have hlook : lookupStream [(key, e0 :: es)] key = some (e0 :: es) := by
    simp [lookupStream]
  rw [verifyChain, hlook]

/-- **C2 (amended).** In a stream that verifies, replacing the `i`-th item's
`event`, `timestamp` or `children` (its stored `hash` kept) makes
`verify_chain` fail with an error reporting index `i` — whenever the
replacement actually breaks one of the three per-item checks and keeps the
children tab-free.  (Not every replacement does: permuting `children` is
undetectable because the node hash is computed over the *sorted* children —
see the counterexample.) -/
theorem verify_chain_mutation_detected (key : String) (pre post : List SEntry)
    (it it' : Item)
    (horig : verifyItems 0 none (pre ++ .item it :: post) = .ok true)
    (hhash : it'.hash = it.hash)
    (hfail : checksPassB (lastHash none pre) it' = false)
    (hct : noTabL it'.children = true)
    (hts : hasTab it'.timestamp = false) :
    ∃ e, verifyChain [(key, pre ++ .item it' :: post)] key = .error e ∧
      errIndex e = some pre.length := by
  have hchain := chainOk_of_verifyItems horig
  have hpre : chainOk none pre := ((chainOk_append_iff pre _ none).mp hchain).1
  have hpreV : verifyItems 0 none pre = .ok true := verifyItems_of_chainOk 0 hpre
  have hcomp := verifyItems_append pre (.item it' :: post) 0 none hpreV
  obtain ⟨e, he, hidx⟩ :=
    verifyItems_broken_item (0 + pre.length) (lastHash none pre) it' post hfail hct hts
  refine ⟨e, ?_, by simpa using hidx⟩
  obtain ⟨e0, es, h2⟩ : ∃ e0 es, pre ++ SEntry.item it' :: post = e0 :: es := by
    cases pre with
    | nil => exact ⟨_, _, rfl⟩
    | cons x xs => exact ⟨_, _, rfl⟩
  rw [h2, verifyChain_singleton, ← h2, hcomp]
  exact he

/-- Values for the C2 scenarios: a fresh one-category session with one event. -/
def c2sess : JObj := JObj.cons "student" (.arr (JArr.cons (.str "A") .nil)) .nil

def c2run1 : Except MError (Item × Store × List String) :=
  startM c2sess none none [] ["2025-01-01T00:00:00", "2025-01-01T00:00:01"]

def c2it0 : Item :=
  match c2run1 with
  | .ok (it, _, _) => it
  | .error _ => default

def c2store : Store :=
  match c2run1 with
  | .ok (_, s1, clk1) =>
      match eventToSession (Json.obj (JObj.cons "type" (.str "event") .nil))
          c2sess [] none s1 clk1 with
      | .ok (_, s2, _) => s2
      | .error _ => []
  | .error _ => []

def c2entries : List SEntry := entriesAt c2store (sessionKey c2sess)

/-- The stream with item 1's `children` replaced by their reversal. -/
def c2mutEntries : List SEntry :=
  match c2entries with
  | [e0, .item it1] =>
      [e0, .item ⟨it1.children.reverse, it1.hash, it1.timestamp, it1.event, it1.label⟩]
  | l => l

/-- The `children` list of the `n`-th record. -/
def childrenAt (l : List SEntry) (n : Nat) : List String :=
  match l.drop n with
  | .item it :: _ => it.children
  | _ => []

set_option maxRecDepth 100000 in
/-- **C2 counterexample.**  A concrete honestly-built two-item stream
verifies; replacing item 1's `children` list by a *different* list (its
reversal — the two children are distinct) still verifies, because the node
hash sorts the children.  So mutating an item's `children` to a different
value does not always make `verify_chain` fail. -/
theorem verify_chain_children_permutation_cex :
    verifyChain [(sessionKey c2sess, c2entries)] (sessionKey c2sess) = .ok true ∧
    verifyChain [(sessionKey c2sess, c2mutEntries)] (sessionKey c2sess) = .ok true ∧
    childrenAt c2mutEntries 1 ≠ childrenAt c2entries 1 := by
  refine ⟨by decide, by decide, by decide⟩

set_option maxRecDepth 100000 in
/-- **C2 witness.**  Mutating the timestamp of the (single) item at index 0
of a verified stream is detectable and reported at index 0. -/
theorem verify_chain_mutation_detected_witness :
    (match verifyChain
        [(sessionKey c2sess,
          [SEntry.item ⟨c2it0.children, c2it0.hash, "zz", c2it0.event, c2it0.label⟩])]
        (sessionKey c2sess) with
     | .error e => errIndex e
     | .ok _ => none) = some 0 := by
  obtain ⟨e, he, hi⟩ := verify_chain_mutation_detected (sessionKey c2sess) [] []
    c2it0 ⟨c2it0.children, c2it0.hash, "zz", c2it0.event, c2it0.label⟩
    (by decide) rfl (by decide) (by decide) (by decide)
  rw [show ([] : List SEntry) ++
      SEntry.item (⟨c2it0.children, c2it0.hash, "zz", c2it0.event, c2it0.label⟩ : Item) :: [] =
      [SEntry.item ⟨c2it0.children, c2it0.hash, "zz", c2it0.event, c2it0.label⟩] from rfl] at he
  rw [he]
  simpa using hi

/-! ## Claim C3: tombstone deletion -/

instance : Inhabited Tombstone := ⟨⟨"", "", [], 0, "", "", ""⟩⟩

theorem lastD_map_item : ∀ (l0 : Item) (ls : List Item),
    lastD (.item l0) (ls.map SEntry.item) = .item ((l0 :: ls).getLast (by simp))
  | l0, [] => rfl
  | l0, l1 :: ls => by
      show lastD (.item l1) (ls.map SEntry.item) = _
      rw [lastD_map_item l1 ls]
      congr 1

theorem allItemHashes_map : ∀ (L : List Item),
    allItemHashes (L.map SEntry.item) = .ok (L.map Item.hash)
  | [] => rfl
  | l0 :: ls => by
      show (match allItemHashes (ls.map SEntry.item) with
            | Except.error e => Except.error e
            | Except.ok hs => Except.ok (l0.hash :: hs)) = _
      rw [allItemHashes_map ls]
      rfl

theorem tombstoneKey_ne (h : String) : ("__tombstone__" ++ h) ≠ h := by
  intro he
  have hlen := congrArg String.length he
  rw [String.length_append] at hlen
  have h13 : ("__tombstone__" : String).length = 13 := by decide
  omega

/-- **C3.**  Deleting a non-empty item stream leaves exactly one tombstone
record under `__tombstone__<h>` carrying the ordered item hashes, the item
count, the final hash, and a `tombstone_hash` over the canonical JSON of the
record without that field; the stream itself reads back as absent. -/
theorem tombstone_preserves_metadata (s : Store) (h reason : String)
    (clk : List String) (L : List Item) (hne : L ≠ [])
    (hstream : lookupStream s h = some (L.map SEntry.item))
    (hfresh : lookupStream s ("__tombstone__" ++ h) = none)
    (hnd : nodupKeysB s = true) :
    ∃ (t : Tombstone) (s' : Store) (clk' : List String),
      deleteStreamWithTombstone s h reason clk = .ok (t, s', clk') ∧
      lookupStream s' h = none ∧
      lookupStream s' ("__tombstone__" ++ h) = some [.tomb t] ∧
      t.item_hashes = L.map Item.hash ∧
      t.item_count = L.length ∧
      t.final_hash = (L.getLast hne).hash ∧
      t.tombstone_hash = digestOf [jsonDump
        (tombJson h t.final_hash t.item_hashes t.item_count reason t.timestamp)] := by
  obtain ⟨l0, ls, rfl⟩ : ∃ l0 ls, L = l0 :: ls := by
    cases L with
    | nil => exact absurd rfl hne
    | cons l0 ls => exact ⟨l0, ls, rfl⟩
  have hmap : (l0 :: ls).map SEntry.item = .item l0 :: ls.map SEntry.item := rfl
  have hEH : entryHash (lastD (.item l0) (ls.map SEntry.item)) =
      .ok (((l0 :: ls).getLast (by simp)).hash) := by
    rw [lastD_map_item]
    rfl
  have hAIH := allItemHashes_map (l0 :: ls)
  rw [hmap] at hAIH
  set fh := ((l0 :: ls).getLast (by simp)).hash with hfh
  set hashes := (l0 :: ls).map Item.hash with hhashes
  set tj := tombJson h fh hashes (SEntry.item l0 :: ls.map SEntry.item).length reason
    (takeTs clk).1 with htj
  have hMH : merkleHash [jsonDump tj] = .ok (digestOf [jsonDump tj]) := by
    apply merkleHash_ok
    intro x hx
    have hx2 := List.mem_singleton.mp hx
    subst hx2
    exact jsonDump_noTab tj
  have hlenL : (SEntry.item l0 :: ls.map SEntry.item).length = (l0 :: ls).length := by
    simp
  refine ⟨⟨h, fh, hashes, (SEntry.item l0 :: ls.map SEntry.item).length, reason,
      (takeTs clk).1, digestOf [jsonDump tj]⟩,
    appendStream (popStream s h) ("__tombstone__" ++ h)
      (.tomb ⟨h, fh, hashes, (SEntry.item l0 :: ls.map SEntry.item).length, reason,
        (takeTs clk).1, digestOf [jsonDump tj]⟩),
    (takeTs clk).2, ?_, ?_, ?_, rfl, hlenL, rfl, ?_⟩
  · rw [deleteStreamWithTombstone.eq_def, hstream, hmap]
    dsimp only
    rw [hEH]
    dsimp only
    rw [hAIH]
    dsimp only
    rw [hMH]
  · rw [lookup_appendStream_other _ _ h _ (fun he => tombstoneKey_ne h he.symm)]
    exact lookup_popStream_self s h hnd
  · rw [lookup_appendStream_self]
    have hget : entriesAt (popStream s h) ("__tombstone__" ++ h) = [] := by
      rw [entriesAt, lookup_popStream_other s h _ (tombstoneKey_ne h), hfresh]
      rfl
    rw [hget]
    rfl
  · exact rfl

/-! ## Claim C10: deletion is not idempotent -/

/-- **C10.**  After a successful `delete_stream_with_tombstone(k, _)`, a
second call on the same key fails with "stream not found", while the
tombstone written by the first call is still the last readable record of
`__tombstone__<k>`. -/
theorem delete_tombstone_not_idempotent (s : Store) (k r1 r2 : String)
    (clk1 clk2 : List String) (t : Tombstone) (s' : Store) (clk' : List String)
    (hnd : nodupKeysB s = true)
    (h1 : deleteStreamWithTombstone s k r1 clk1 = .ok (t, s', clk')) :
    deleteStreamWithTombstone s' k r2 clk2 = .error (.streamNotFound k) ∧
    (entriesAt s' ("__tombstone__" ++ k)).getLast? = some (.tomb t) := by
  rw [deleteStreamWithTombstone.eq_def] at h1
  split at h1
  · cases h1
  · cases h1
  · rename_i e es hlook
    split at h1
    · cases h1
    · split at h1
      · cases h1
      · split at h1
        · cases h1
        · simp only [Except.ok.injEq, Prod.mk.injEq] at h1
          obtain ⟨ht, hs', hclk⟩ := h1
          subst ht
          constructor
          · have hlk : lookupStream s' k = none := by
              rw [← hs']
              rw [lookup_appendStream_other _ _ k _ (fun he => tombstoneKey_ne k he.symm)]
              exact lookup_popStream_self s k hnd
            rw [deleteStreamWithTombstone.eq_def, hlk]
          · rw [← hs', entriesAt_appendStream_self]
            exact List.getLast?_concat _

/-! ### Concrete store for the deletion witnesses -/

/-- A store holding one single-item stream under key `"k"`. -/
def c3store : Store := [("k", [SEntry.item ⟨[], "h0", "ts", Json.null, none⟩])]

set_option maxRecDepth 100000 in
theorem tombstone_preserves_metadata_witness :
    (match deleteStreamWithTombstone c3store "k" "gdpr" ["td"] with
     | .ok (t, s2, _) =>
         lookupStream s2 "k" = none ∧
         lookupStream s2 ("__tombstone__" ++ "k") = some [.tomb t] ∧
         t.item_hashes = ["h0"] ∧ t.item_count = 1 ∧ t.final_hash = "h0"
     | .error _ => False) := by
  obtain ⟨t, s2, clk2, heq, hl1, hl2, hih, hic, hfh, hth⟩ :=
    tombstone_preserves_metadata c3store "k" "gdpr" ["td"]
      [⟨[], "h0", "ts", Json.null, none⟩] (by simp) (by decide) (by decide) (by decide)
  rw [heq]
  exact ⟨hl1, hl2, by rw [hih]; rfl, by rw [hic]; rfl, by rw [hfh]; rfl⟩

def c10del1 : Except MError (Tombstone × Store × List String) :=
  deleteStreamWithTombstone c3store "k" "r1" ["td"]

def c10t : Tombstone := match c10del1 with | .ok (t, _, _) => t | .error _ => default

def c10s : Store := match c10del1 with | .ok (_, s2, _) => s2 | .error _ => []

def c10clk : List String := match c10del1 with | .ok (_, _, c) => c | .error _ => []

set_option maxRecDepth 100000 in
theorem delete_tombstone_not_idempotent_witness :
    deleteStreamWithTombstone c10s "k" "r2" [] = .error (.streamNotFound "k") ∧
    (entriesAt c10s ("__tombstone__" ++ "k")).getLast? = some (.tomb c10t) :=
  delete_tombstone_not_idempotent c3store "k" "r1" "r2" ["td"] [] c10t c10s c10clk
    (by decide) (by decide)

/-! ## Claim C4: content-addressed rename on close -/

/-- **C4 (amended).**  Closing a live session returns the close item's hash
as the final hash; the full ordered item list, ending in the close item
(whose event is the close event), reads back under that hash.  The old
session key reads back as absent *provided* it is not itself one of the
parent-stream keys the close propagates to; a descriptor such as
`\x7b"student": "John"\x7d` collides with its own parent stream and the
session key reads back non-null after close. -/
theorem close_session_content_addressing (sess : JObj) (s : Store) (clk : List String)
    (ents : List SEntry)
    (hlive : lookupStream s (sessionKey sess) = some ents)
    (hne : ents ≠ [])
    (hclk : clkOkB clk = true) (hok : storeOkB s = true) (hnd : nodupKeysB s = true)
    (hcol : sessionKey sess ∉ parentKeys sess) :
    ∃ (cit : Item) (s' : Store) (clk' : List String),
      closeSession sess false s clk = .ok (cit.hash, s', clk') ∧
      cit.event = closeEvent sess ∧
      lookupStream s' (sessionKey sess) = none ∧
      lookupStream s' cit.hash = some (ents ++ [.item cit]) := by
  obtain ⟨cit, s', clk', h1, h2, h3, h4, h5, h6, h7, h8, h9, h10⟩ :=
    closeSession_spec sess s clk hclk hok hnd
  have hents : entriesAt s (sessionKey sess) = ents := by
    rw [entriesAt, hlive]; rfl
  exact ⟨cit, s', clk', h1, h2, h9 hcol, by rw [h8, hents]⟩

/-- The one-category scalar descriptor whose session key coincides with the
parent-stream key it propagates to. -/
def c4sess : JObj := JObj.cons "student" (.str "John") .nil

def c4store : Store :=
  match startM c4sess none none [] ["t0"] with
  | .ok (_, s, _) => s
  | .error _ => []

def c4close : Except MError (String × Store × List String) :=
  closeSession c4sess false c4store ["t1", "t2"]

def c4ok : Bool := match c4close with | .ok _ => true | .error _ => false

def c4sPost : Store := match c4close with | .ok (_, s2, _) => s2 | .error _ => []

set_option maxRecDepth 100000 in
/-- **C4 counterexample.**  Start a session for `\x7b"student": "John"\x7d`
(so the session is live), then close it: the close succeeds, yet the old
session key still reads back non-null, because parent propagation appended a
`child_session_finished` item to the stream keyed by
`session_key(\x7b"student": "John"\x7d)` — the very key that was renamed
away. -/
theorem close_session_scalar_parent_cex :
    (lookupStream c4store (sessionKey c4sess)).isSome = true ∧
    c4ok = true ∧
    (lookupStream c4sPost (sessionKey c4sess)).isSome = true :=
  ⟨by decide, by decide, by decide⟩

/-- A list-valued descriptor: its parent-stream key differs from its own
session key, so the amended theorem applies. -/
def c4wSess : JObj := JObj.cons "student" (.arr (JArr.cons (.str "A") .nil)) .nil

def c4wStore : Store :=
  match startM c4wSess none none [] ["t0"] with
  | .ok (_, s, _) => s
  | .error _ => []

set_option maxRecDepth 100000 in
theorem close_session_content_addressing_witness :
    (match closeSession c4wSess false c4wStore ["t1", "t2"] with
     | .ok (fh, s2, _) =>
         lookupStream s2 (sessionKey c4wSess) = none ∧
         (lookupStream s2 fh).isSome = true
     | .error _ => False) := by
  obtain ⟨cit, s2, clk2, h1, h2, h3, h4⟩ :=
    close_session_content_addressing c4wSess c4wStore ["t1", "t2"]
      (entriesAt c4wStore (sessionKey c4wSess))
      (by decide) (by decide) (by decide) (by decide) (by decide) (by decide)
  rw [h1]
  exact ⟨h3, by rw [h4]; rfl⟩

/-! ## Claim C5: parent-propagation cardinality -/

/-- Inversion of a successful `event_to_session`: the new store is the old
one with the produced item appended to the session stream, the item carries
the given event, and its hash is hex. -/
theorem eventToSession_ok_inv {ev : Json} {sess : JObj} {extra : List String}
    {label : Option String} {s : Store} {clk : List String}
    {it : Item} {s' : Store} {clk' : List String}
    (h : eventToSession ev sess extra label s clk = .ok (it, s', clk')) :
    s' = appendStream s (sessionKey sess) (.item it) ∧
    it.event = ev ∧ allHexB it.hash = true := by
  unfold eventToSession at h
  split at h
  · cases h
  · split at h
    · cases h
    · split at h
      · cases h
      · rename_i nh hnh
        simp only [Except.ok.injEq, Prod.mk.injEq] at h
        obtain ⟨hit, hs, hclk⟩ := h
        subst hit
        exact ⟨hs.symm, rfl, merkleHash_out_allHex hnh⟩

/-- Every successful `propagateVals` run appends one `child_session_finished`
item per value in the list, duplicates included. -/
theorem propagateVals_count (key : String) (sh : String) (sess : JObj) :
    ∀ (vals : List Json) (s : Store) (clk : List String) (s' : Store)
      (clk' : List String),
    propagateVals key vals sh sess s clk = .ok (s', clk') →
    countCSF s' = countCSF s + vals.length
  | [], s, clk, s', clk', h => by
      simp only [propagateVals, Except.ok.injEq, Prod.mk.injEq] at h
      rw [← h.1]
      simp
  | v :: rest, s, clk, s', clk', h => by
      rw [propagateVals] at h
      split at h
      · cases h
      · rename_i it s1 clk1 heq
        have hinv := eventToSession_ok_inv heq
        have ih := propagateVals_count key sh sess rest s1 clk1 s' clk' h
        rw [ih, hinv.1, countCSF_appendStream, isCSFB_of_event hinv.2.1]
        simp only [List.length_cons, if_true]
        omega

/-- Every successful `propagate` run appends one `child_session_finished`
item per `(category, value)` occurrence of the entries dict. -/
theorem propagate_count : ∀ (entries : JObj) (sh : String) (sess : JObj)
    (s : Store) (clk : List String) (s' : Store) (clk' : List String),
    propagate entries sh sess s clk = .ok (s', clk') →
    countCSF s' = countCSF s + (parentTargets entries).length
  | .nil, sh, sess, s, clk, s', clk', h => by
      simp only [propagate, Except.ok.injEq, Prod.mk.injEq] at h
      rw [← h.1]
      simp [parentTargets]
  | .cons k v tl, sh, sess, s, clk, s', clk', h => by
      rw [propagate] at h
      by_cases hk : k ∈ CATEGORIES
      · rw [if_pos hk] at h
        split at h
        · cases h
        · rename_i s1 clk1 heq
          have h1 := propagateVals_count k sh sess (listify v) s clk s1 clk1 heq
          have ih := propagate_count tl sh sess s1 clk1 s' clk' h
          rw [ih, h1]
          simp only [parentTargets, if_pos hk, List.length_append, List.length_map]
          omega
      · rw [if_neg hk] at h
        have ih := propagate_count tl sh sess s clk s' clk' h
        rw [ih]
        simp [parentTargets, hk]

/-- Renaming a stream to a fresh key preserves the number of
`child_session_finished` items. -/
theorem countCSF_renameStream {s : Store} {old new : String} {s2 : Store}
    (hnd : nodupKeysB s = true)
    (hfresh : lookupStream s new = none)
    (h : renameStream s old new = .ok s2) :
    countCSF s2 = countCSF s := by
  unfold renameStream at h
  split at h
  · cases h
    rfl
  · rename_i hne
    split at h
    · cases h
    · rename_i v hv
      cases h
      have hp : lookupStream (popStream s old) new = none := by
        rw [lookup_popStream_other s old new hne]
        exact hfresh
      have h2 := countCSF_setStream_absent (v := v) hp
      have h3 := countCSF_popStream hnd hv
      omega

set_option maxRecDepth 100000 in
/-- **C5 (amended).**  Closing with `logical_break = False` appends one
`child_session_finished` item per *occurrence* of a recognized-category
value in the descriptor — the length of the flattened `(category, value)`
list, counting duplicate values separately — not one per distinct value;
closing with `logical_break = True` appends zero. -/
theorem parent_propagation_cardinality (sess : JObj) (lb : Bool) (s : Store)
    (clk : List String) (fh : String) (s' : Store) (clk' : List String)
    (hnd : nodupKeysB s = true)
    (hfresh : lookupStream s fh = none)
    (hrun : closeSession sess lb s clk = .ok (fh, s', clk')) :
    countCSF s' = countCSF s + (if lb then 0 else (parentTargets sess).length) := by
  unfold closeSession at hrun
  split at hrun
  · cases hrun
  · rename_i fi s1 clk1 hets
    obtain ⟨hs1, hev, hhex⟩ := eventToSession_ok_inv hets
    have hcnt1 : countCSF s1 = countCSF s := by
      rw [hs1, countCSF_appendStream, isCSFB_close hev]
      simp
    have hnd1 : nodupKeysB s1 = true := by
      rw [hs1]
      exact nodup_appendStream hnd
    have hne2 : fi.hash ≠ sessionKey sess := allHex_ne_objDump hhex sess
    split at hrun
    · cases hrun
    · rename_i s2 hren
      cases lb with
      | true =>
          simp only [if_true] at hrun
          simp only [Except.ok.injEq, Prod.mk.injEq] at hrun
          obtain ⟨hfh, hs2, hclk⟩ := hrun
          subst hfh
          subst hs2
          have hfr1 : lookupStream s1 fi.hash = none := by
            rw [hs1, lookup_appendStream_other _ _ _ _ hne2]
            exact hfresh
          have hcnt2 := countCSF_renameStream hnd1 hfr1 hren
          simp only [if_true]
          omega
      | false =>
          simp only [Bool.false_eq_true, if_false] at hrun
          split at hrun
          · cases hrun
          · rename_i s3 clk3 hprop
            simp only [Except.ok.injEq, Prod.mk.injEq] at hrun
            obtain ⟨hfh, hs3, hclk⟩ := hrun
            subst hfh
            subst hs3
            have hfr1 : lookupStream s1 fi.hash = none := by
              rw [hs1, lookup_appendStream_other _ _ _ _ hne2]
              exact hfresh
            have hcnt2 := countCSF_renameStream hnd1 hfr1 hren
            have hcnt3 := propagate_count sess fi.hash sess s2 clk1 s3 clk3 hprop
            simp only [Bool.false_eq_true, if_false]
            omega

/-- Distinct members of a list of JSON values. -/
def dedupJ : List Json → List Json
  | [] => []
  | x :: r => if x ∈ r then dedupJ r else x :: dedupJ r

/-- A descriptor carrying the same recognized-category value twice. -/
def c5sess : JObj :=
  JObj.cons "student" (.arr (JArr.cons (.str "A") (JArr.cons (.str "A") .nil))) .nil

def c5close : Except MError (String × Store × List String) :=
  closeSession c5sess false [] ["t0", "t1", "t2"]

def c5ok : Bool := match c5close with | .ok _ => true | .error _ => false

def c5sPost : Store := match c5close with | .ok (_, s2, _) => s2 | .error _ => []

set_option maxRecDepth 100000 in
/-- **C5 counterexample.**  The descriptor `\x7b"student": ["A", "A"]\x7d`
carries exactly one distinct recognized-category value, yet a successful
close with `logical_break = False` appends two `child_session_finished`
items, not one: the code loops over value occurrences, not distinct
values. -/
theorem parent_propagation_distinct_cex :
    (dedupJ ((parentTargets c5sess).map Prod.snd)).length = 1 ∧
    c5ok = true ∧
    countCSF c5sPost = 2 :=
  ⟨by decide, by decide, by decide⟩

def c5wClose : Except MError (String × Store × List String) :=
  closeSession c4wSess false [] ["t0", "t1"]

def c5wFh : String := match c5wClose with | .ok (fh, _, _) => fh | .error _ => ""

def c5wS : Store := match c5wClose with | .ok (_, s2, _) => s2 | .error _ => []

def c5wClk : List String := match c5wClose with | .ok (_, _, c) => c | .error _ => []

set_option maxRecDepth 100000 in
theorem parent_propagation_cardinality_witness :
    countCSF c5wS = countCSF ([] : Store) +
      (if false then 0 else (parentTargets c4wSess).length) :=
  parent_propagation_cardinality c4wSess false [] ["t0", "t1"] c5wFh c5wS c5wClk
    rfl rfl (by decide)

/-! ## Claim C6: the lock-fields stage -/

/-- **C6 (amended).**  A `lock_fields` event is consumed, never yielded, and
its fields are merged into the connection's lock map precisely when
`fields.source` is *absent* or *differs from* the currently locked source —
the lock is rewritten when the source changes, and left untouched when the
source matches; every other event is yielded with the current lock map
merged into it in place, the lock map unchanged. -/
theorem lock_fields_stage_behavior (lock ev : JObj) (rest : List JObj) (nm : Json)
    (hev : oGet ev "event" = some nm) :
    (∀ fields : JObj, nm = Json.str "lock_fields" →
      oGet ev "fields" = some (Json.obj fields) →
      lockRun lock (ev :: rest) =
        lockRun (if oHas fields "source" = false ∨
                   oGetD fields "source" (Json.str "") ≠ oGetD lock "source" (Json.str "")
                 then oUpdate lock fields else lock) rest) ∧
    (nm ≠ Json.str "lock_fields" →
      lockRun lock (ev :: rest) =
        match lockRun lock rest with
        | .error e => .error e
        | .ok (lockF, outs) => .ok (lockF, oUpdate ev lock :: outs)) := by
  constructor
  · intro fields hnm hf
    subst hnm
    have hstep : lockStep lock ev =
        .ok (if oHas fields "source" = false ∨
               oGetD fields "source" (Json.str "") ≠ oGetD lock "source" (Json.str "")
             then oUpdate lock fields else lock, none) := by
      by_cases hc : oHas fields "source" = false ∨
          oGetD fields "source" (Json.str "") ≠ oGetD lock "source" (Json.str "")
      · simp [lockStep, hev, hf, hc]
      · simp [lockStep, hev, hf, hc]
    rw [lockRun, hstep]
    cases h2 : lockRun (if oHas fields "source" = false ∨
        oGetD fields "source" (Json.str "") ≠ oGetD lock "source" (Json.str "")
      then oUpdate lock fields else lock) rest with
    | error e => simp [h2]
    | ok p => simp [h2]
  · intro hne
    have hstep : lockStep lock ev = .ok (lock, some (oUpdate ev lock)) := by
      simp [lockStep, hev, hne]
    rw [lockRun, hstep]

/-- A lock map in which `source` is already locked. -/
def c6lock : JObj := JObj.cons "source" (.str "S") .nil

/-- A fields map whose `source` matches the lock. -/
def c6fields : JObj :=
  JObj.cons "source" (.str "S") (JObj.cons "course" (.str "C") .nil)

/-- A fields map whose `source` differs from the lock. -/
def c6fieldsT : JObj :=
  JObj.cons "source" (.str "T") (JObj.cons "course" (.str "C") .nil)

def c6ev : JObj :=
  JObj.cons "event" (.str "lock_fields") (JObj.cons "fields" (.obj c6fields) .nil)

def c6evT : JObj :=
  JObj.cons "event" (.str "lock_fields") (JObj.cons "fields" (.obj c6fieldsT) .nil)

/-- A non-lock event. -/
def c6evOther : JObj :=
  JObj.cons "event" (.str "keystroke") (JObj.cons "x" (.num 1) .nil)

/-- **C6 counterexample.**  With `source` locked to `"S"`: a `lock_fields`
event whose `fields.source` *matches* the lock is NOT merged — the lock
keeps no `course` key — while one whose `fields.source` *differs* IS merged;
the claim has the condition backwards. -/
theorem lock_fields_matching_source_cex :
    (oGet c6fields "source" = oGet c6lock "source" ∧
     lockStep c6lock c6ev = .ok (c6lock, none) ∧
     oHas c6lock "course" = false) ∧
    (oGet c6fieldsT "source" ≠ oGet c6lock "source" ∧
     lockStep c6lock c6evT = .ok (oUpdate c6lock c6fieldsT, none) ∧
     oHas (oUpdate c6lock c6fieldsT) "course" = true) := by
  exact ⟨⟨by decide, by decide, by decide⟩, ⟨by decide, by decide, by decide⟩⟩

theorem lock_fields_stage_behavior_witness :
    lockRun c6lock [c6ev] = .ok (c6lock, []) ∧
    lockRun c6lock [c6evOther] = .ok (c6lock, [oUpdate c6evOther c6lock]) := by
  constructor
  · have h := (lock_fields_stage_behavior c6lock c6ev [] (Json.str "lock_fields")
      rfl).1 c6fields rfl rfl
    rw [h]
    decide
  · have h := (lock_fields_stage_behavior c6lock c6evOther [] (Json.str "keystroke")
      rfl).2 (by decide)
    rw [h]
    decide

/-! ## Claim C7: auth backlog replay -/

theorem oGet_oSet_self : ∀ (d : JObj) (k : String) (v : Json),
    oGet (oSet d k v) k = some v
  | .nil, k, v => by simp [oSet, oGet]
  | .cons k2 w r, k, v => by
      by_cases h : k2 = k
      · simp [oSet, oGet, h]
      · simp only [oSet, if_neg h, oGet]
        exact oGet_oSet_self r k v

theorem authRun_cons (authF : JObj → Option Json) (st : AuthState) (ev : JObj)
    (rest : List JObj) :
    authRun authF st (ev :: rest) =
      ((authRun authF (authStep authF st ev).1 rest).1,
       (authStep authF st ev).2 ++ (authRun authF (authStep authF st ev).1 rest).2) := by
  rw [authRun]

theorem authRun_cons_of (authF : JObj → Option Json) (st : AuthState) (ev : JObj)
    (rest : List JObj) (st1 : AuthState) (out : List JObj)
    (h : authStep authF st ev = (st1, out)) :
    authRun authF st (ev :: rest) =
      ((authRun authF st1 rest).1, out ++ (authRun authF st1 rest).2) := by
  rw [authRun_cons, h]

theorem authRun_snd_cons_of (authF : JObj → Option Json) (st : AuthState) (ev : JObj)
    (rest : List JObj) (st1 : AuthState) (out : List JObj)
    (h : authStep authF st ev = (st1, out)) :
    (authRun authF st (ev :: rest)).2 = out ++ (authRun authF st1 rest).2 := by
  rw [authRun_cons, h]

/-- Events remembered before auth (with `authF` failing on each) just
accumulate, stripped of any injected `auth` key, at the end of the backlog;
nothing is yielded. -/
theorem authRun_preAuth (authF : JObj → Option Json) :
    ∀ (pre bk rest : List JObj),
    (∀ e ∈ pre, authF (oRemove e "auth") = none) →
    authRun authF ⟨none, bk⟩ (pre ++ rest) =
      authRun authF ⟨none, bk ++ pre.map (fun e => oRemove e "auth")⟩ rest
  | [], bk, rest, _ => by simp
  | e :: pre, bk, rest, hyp => by
      have h1 : authF (oRemove e "auth") = none := hyp e (by simp)
      have hstep : authStep authF ⟨none, bk⟩ e = (⟨none, bk ++ [oRemove e "auth"]⟩, []) := by
        simp [authStep, h1]
      show authRun authF ⟨none, bk⟩ (e :: (pre ++ rest)) = _
      rw [authRun_cons_of authF _ e (pre ++ rest) _ _ hstep]
      rw [authRun_preAuth authF pre (bk ++ [oRemove e "auth"]) rest
        (fun x hx => hyp x (List.mem_cons_of_mem e hx))]
      simp [List.append_assoc]

theorem flushBacklog_append (idt : Json) : ∀ (l1 l2 : List JObj),
    flushBacklog idt (l1 ++ l2) = flushBacklog idt l1 ++ flushBacklog idt l2
  | [], l2 => rfl
  | e :: r, l2 => by
      simp only [List.cons_append, flushBacklog, List.append_eq]
      rw [flushBacklog_append idt r l2]
      split
      · rfl
      · simp

theorem flushBacklog_clean (idt : Json) : ∀ (l : List JObj),
    (∀ e ∈ l, truthy (oGetD e "_consumed_by_auth" Json.null) = false) →
    flushBacklog idt l = l.map (fun e => oUpdate e (JObj.cons "auth" idt .nil))
  | [], _ => rfl
  | e :: r, h => by
      have h1 := h e (by simp)
      rw [flushBacklog, if_neg (by simp [h1])]
      rw [flushBacklog_clean idt r (fun x hx => h x (List.mem_cons_of_mem e hx))]
      rfl

/-- The event tagged `_consumed_by_auth` is dropped by the flush. -/
theorem flushBacklog_tag (idt : Json) (ev : JObj) :
    flushBacklog idt [oSet ev "_consumed_by_auth" (Json.bool true)] = [] := by
  simp [flushBacklog, oGetD, oGet_oSet_self, truthy]

/-- Once authenticated with an empty backlog, every message is yielded
immediately with `auth` attached. -/
theorem authRun_authed (authF : JObj → Option Json) (idt : Json) :
    ∀ (rest : List JObj),
    (authRun authF ⟨some idt, []⟩ rest).2 =
      rest.map (fun e => oUpdate (oRemove e "auth") (JObj.cons "auth" idt .nil))
  | [] => by simp [authRun]
  | e :: r => by
      have hstep : authStep authF ⟨some idt, []⟩ e =
          (⟨some idt, []⟩, [oUpdate (oRemove e "auth") (JObj.cons "auth" idt .nil)]) := by
        simp [authStep, flushBacklog]
      rw [authRun_snd_cons_of authF _ e r _ _ hstep]
      rw [authRun_authed authF idt r]
      rfl

/-- Attach the identity to an event, after stripping any injected `auth`. -/
def attachAuth (idt : Json) (e : JObj) : JObj :=
  oUpdate (oRemove e "auth") (JObj.cons "auth" idt .nil)

/-- **C7.**  If the auth resolver fails on every message before `akEv` and
first yields an identity on `akEv`, then nothing is yielded until the next
message arrives; at that point the earlier messages are replayed downstream
in their original order, each with `auth` set to that identity, followed by
every later message likewise — and the message that carried the auth is
never yielded. -/
theorem auth_backlog_replay (authF : JObj → Option Json) (idt : Json)
    (pre post : List JObj) (akEv : JObj)
    (hpre : ∀ e ∈ pre, authF (oRemove e "auth") = none)
    (hak : authF (oRemove akEv "auth") = some idt)
    (hclean : ∀ e ∈ pre,
      truthy (oGetD (oRemove e "auth") "_consumed_by_auth" Json.null) = false) :
    (authRun authF ⟨none, []⟩ (pre ++ akEv :: post)).2 =
      if post = [] then [] else (pre ++ post).map (attachAuth idt) := by
  rw [authRun_preAuth authF pre [] (akEv :: post) hpre]
  simp only [List.nil_append]
  have hstep : authStep authF ⟨none, pre.map (fun e => oRemove e "auth")⟩ akEv =
      (⟨some idt,
        pre.map (fun e => oRemove e "auth") ++
          [oSet (oRemove akEv "auth") "_consumed_by_auth" (Json.bool true)]⟩, []) := by
    simp [authStep, hak]
  rw [authRun_snd_cons_of authF _ akEv post _ _ hstep]
  simp only [List.nil_append]
  cases post with
  | nil => simp [authRun]
  | cons nxt rest =>
      have hstep2 : authStep authF
          ⟨some idt,
            pre.map (fun e => oRemove e "auth") ++
              [oSet (oRemove akEv "auth") "_consumed_by_auth" (Json.bool true)]⟩ nxt =
          (⟨some idt, []⟩,
           flushBacklog idt
             (pre.map (fun e => oRemove e "auth") ++
               [oSet (oRemove akEv "auth") "_consumed_by_auth" (Json.bool true)]) ++
             [oUpdate (oRemove nxt "auth") (JObj.cons "auth" idt .nil)]) := by
        simp [authStep]
      rw [authRun_snd_cons_of authF _ nxt rest _ _ hstep2]
      rw [flushBacklog_append]
      rw [flushBacklog_clean idt (pre.map (fun e => oRemove e "auth"))
        (fun x hx => by
          obtain ⟨y, hy, rfl⟩ := List.mem_map.mp hx
          exact hclean y hy)]
      rw [flushBacklog_tag]
      rw [authRun_authed authF idt rest]
      have hcomp : ((fun e => oUpdate e (JObj.cons "auth" idt .nil)) ∘
          (fun e => oRemove e "auth")) = attachAuth idt := rfl
      have heta : (fun e => oUpdate (oRemove e "auth") (JObj.cons "auth" idt .nil)) =
          attachAuth idt := rfl
      simp [List.map_map, hcomp, heta]
      rfl

def c7auth : JObj → Option Json := fun e => oGet e "login"

def c7e1 : JObj := JObj.cons "event" (.str "keystroke") .nil

def c7ak : JObj := JObj.cons "login" (.str "user1") .nil

def c7e2 : JObj := JObj.cons "event" (.str "mouse") .nil

theorem auth_backlog_replay_witness :
    (authRun c7auth ⟨none, []⟩ ([c7e1] ++ c7ak :: [c7e2])).2 =
      if ([c7e2] : List JObj) = [] then []
      else ([c7e1] ++ [c7e2]).map (attachAuth (Json.str "user1")) :=
  auth_backlog_replay c7auth (Json.str "user1") [c7e1] [c7e2] c7ak
    (by decide) (by decide) (by decide)

/-! ## Claim C8: the hasher -/

theorem findTab_mem : ∀ {l : List String} {s : String},
    findTab l = some s → s ∈ l ∧ hasTab s = true
  | [], s, h => by cases h
  | x :: r, s, h => by
      simp only [findTab] at h
      by_cases hx : hasTab x = true
      · rw [if_pos hx] at h
        cases h
        exact ⟨by simp, hx⟩
      · rw [if_neg hx] at h
        obtain ⟨hm, ht⟩ := findTab_mem h
        exact ⟨by simp [hm], ht⟩

/-- **C8.**  `merkle_hash` fails exactly when some input contains a TAB, the
error always carries a TAB-bearing input, and on TAB-free inputs it returns
the lowercase hex SHA-256 digest of the inputs joined by TAB. -/
theorem merkle_hash_spec (l : List String) :
    ((∃ e, merkleHash l = .error e) ↔ ∃ s ∈ l, hasTab s = true) ∧
    (∀ e, merkleHash l = .error e → ∃ s ∈ l, hasTab s = true ∧ e = .tabInput s) ∧
    ((∀ s ∈ l, hasTab s = false) →
      merkleHash l = .ok (hexOfBytes (sha256 (utf8 (String.intercalate "\t" l)))) ∧
      ∀ c ∈ (hexOfBytes (sha256 (utf8 (String.intercalate "\t" l)))).data,
        isHexLower c = true) := by
  refine ⟨⟨?_, ?_⟩, ?_, ?_⟩
  · rintro ⟨e, he⟩
    simp only [merkleHash] at he
    cases hf : findTab l with
    | none => rw [hf] at he; cases he
    | some s =>
        obtain ⟨hm, ht⟩ := findTab_mem hf
        exact ⟨s, hm, ht⟩
  · rintro ⟨s, hm, ht⟩
    cases hf : findTab l with
    | none =>
        have := findTab_eq_none.mp hf s hm
        rw [ht] at this
        cases this
    | some s2 => exact ⟨.tabInput s2, by simp [merkleHash, hf]⟩
  · intro e he
    simp only [merkleHash] at he
    cases hf : findTab l with
    | none => rw [hf] at he; cases he
    | some s2 =>
        rw [hf] at he
        cases he
        obtain ⟨hm, ht⟩ := findTab_mem hf
        exact ⟨s2, hm, ht, rfl⟩
  · intro h
    refine ⟨merkleHash_ok h, ?_⟩
    intro c hc
    exact hexOfBytes_isHexLower hc

theorem merkle_hash_spec_witness :
    merkleHash ["a", "b"] =
      .ok (hexOfBytes (sha256 (utf8 (String.intercalate "\t" ["a", "b"])))) :=
  ((merkle_hash_spec ["a", "b"]).2.2 (by decide)).1

/-! ## Claim C9: idempotent session initialization -/

/-- Once the `session_started` flag is set, any number of further
`initialize_session` calls leave the state untouched. -/
theorem iterInit_started (headers metadata : Option Json) (student tool : String) :
    ∀ (n : Nat) (st : DecState), st.sessionStarted = true →
    iterInit headers metadata student tool n st = .ok st
  | 0, st, h => rfl
  | n + 1, st, h => by
      rw [iterInit]
      have h1 : initializeSession headers metadata student tool st = .ok st := by
        simp [initializeSession, h]
      rw [h1]
      exact iterInit_started headers metadata student tool n st h

/-- **C9.**  On a state whose session has not started, one
`initialize_session` call appends exactly one `start` item, then the
optional header item, then the buffered events in FIFO order, to the
session stream; it clears the buffer and sets the started flag, and every
subsequent call is a no-op returning the same state. -/
theorem initialize_session_idempotent (headers metadata : Option Json)
    (student tool : String) (st : DecState)
    (hstart : st.sessionStarted = false)
    (hclk : clkOkB st.clk = true)
    (hok : storeOkB st.store = true)
    (hnd : nodupKeysB st.store = true) :
    ∃ (its : List Item) (st' : DecState),
      initializeSession headers metadata student tool st = .ok st' ∧
      st'.sessionStarted = true ∧
      st'.buffer = [] ∧
      its.map Item.event =
        startEvent (iniSess student tool) metadata none ::
          ((match headers with
            | some h => [headerEvent h]
            | none => []) ++ st.buffer) ∧
      entriesAt st'.store (sessionKey (iniSess student tool)) =
        entriesAt st.store (sessionKey (iniSess student tool)) ++
          its.map SEntry.item ∧
      (∀ n, iterInit headers metadata student tool n st' = .ok st') := by
  obtain ⟨it0, heq0, hevt0, hts0, hlbl0, htab0, hhex0, hgood0⟩ :=
    eventToSession_spec (startEvent (iniSess student tool) metadata none)
      (iniSess student tool) [] (some "start") st.store st.clk (by simp)
      (clkOk_head hclk) (streamOk_entriesAt _ hok)
  cases headers with
  | none =>
      obtain ⟨its, s3, clk3, hr1, hr2, hr3, hr4, hr5, hr6, hr7, hr8⟩ :=
        replayBuffer_spec (iniSess student tool) st.buffer
          (appendStream st.store (sessionKey (iniSess student tool)) (.item it0))
          (takeTs st.clk).2 (clkOk_tail hclk) (storeOk_appendStream hok htab0)
          (nodup_appendStream hnd)
      refine ⟨it0 :: its, ⟨some (iniSess student tool), true, [], s3, clk3⟩,
        ?_, rfl, rfl, ?_, ?_, ?_⟩
      · simp [initializeSession, hstart, startM, heq0, headerStep, hr1]
      · simp [hevt0, hr5]
      · rw [hr6, entriesAt_appendStream_self]
        simp
      · intro n
        exact iterInit_started none metadata student tool n _ rfl
  | some hdr =>
      obtain ⟨it1, heq1, hevt1, hts1, hlbl1, htab1, hhex1, hgood1⟩ :=
        eventToSession_spec (headerEvent hdr) (iniSess student tool) [] (some "headers")
          (appendStream st.store (sessionKey (iniSess student tool)) (.item it0))
          (takeTs st.clk).2 (by simp) (clkOk_head (clkOk_tail hclk))
          (streamOk_entriesAt _ (storeOk_appendStream hok htab0))
      obtain ⟨its, s3, clk3, hr1, hr2, hr3, hr4, hr5, hr6, hr7, hr8⟩ :=
        replayBuffer_spec (iniSess student tool) st.buffer
          (appendStream
            (appendStream st.store (sessionKey (iniSess student tool)) (.item it0))
            (sessionKey (iniSess student tool)) (.item it1))
          (takeTs (takeTs st.clk).2).2
          (clkOk_tail (clkOk_tail hclk))
          (storeOk_appendStream (storeOk_appendStream hok htab0) htab1)
          (nodup_appendStream (nodup_appendStream hnd))
      refine ⟨it0 :: it1 :: its, ⟨some (iniSess student tool), true, [], s3, clk3⟩,
        ?_, rfl, rfl, ?_, ?_, ?_⟩
      · simp [initializeSession, hstart, startM, heq0, headerStep, heq1, hr1]
      · simp [hevt0, hevt1, hr5]
      · rw [hr6, entriesAt_appendStream_self, entriesAt_appendStream_self]
        simp
      · intro n
        exact iterInit_started (some hdr) metadata student tool n _ rfl

/-- A pre-session decoder state with one buffered event. -/
def c9st : DecState := ⟨none, false, [Json.null], [], ["t0", "t1"]⟩

def c9res : Except MError DecState := initializeSession none none "stu" "tool" c9st

set_option maxRecDepth 100000 in
theorem initialize_session_idempotent_witness :
    (match c9res with
     | .ok st2 =>
         st2.sessionStarted = true ∧ st2.buffer = [] ∧
         iterInit none none "stu" "tool" 2 st2 = .ok st2
     | .error _ => False) := by
  obtain ⟨its, st2, h1, h2, h3, h4, h5, h6⟩ :=
    initialize_session_idempotent none none "stu" "tool" c9st rfl (by decide) rfl rfl
  have hres : c9res = .ok st2 := h1
  rw [hres]
  exact ⟨h2, h3, h6 2⟩

end WObs
